import Mathlib

/-!
# SalesWorkflow — verification of the workflow execution and validation engine

Shallow embedding of `src/server/utils/parallel-executor.ts`
(`ParallelWorkflowExecutor`) and of the `WorkflowInspector` found in the
repository sources, together with proofs about the embedded definitions.

JavaScript runtime values are modelled by the `Value` type below; JavaScript
`Map`s and `Set`s are modelled by insertion-ordered association lists and
duplicate-free lists, matching the iteration order JS guarantees.
-/

namespace SalesWorkflow

/-- A JSON-like runtime value, modelling the `any`-typed result records the
executor passes around.  Objects are insertion-ordered key/value lists, as JS
objects are for non-integer string keys. -/
inductive Value where
  | vNull : Value
  | vBool (b : Bool) : Value
  | vNum (n : Int) : Value
  | vStr (s : String) : Value
  | vArr (elems : List Value) : Value
  | vObj (fields : List (String × Value)) : Value

/-- JS truthiness: `null`, `false`, `0` and `""` are falsy; arrays and objects
(including empty ones) are truthy. -/
def jsTruthy : Value → Bool
  | .vNull => false
  | .vBool b => b
  | .vNum n => n != 0
  | .vStr s => s != ""
  | .vArr _ => true
  | .vObj _ => true

/-- JS `String.prototype.includes`: `pat` occurs contiguously inside `s`. -/
def jsIncludes (s pat : String) : Bool :=
  decide (pat.data <:+: s.data)

/-- Insertion-ordered association list modelling a JS `Map` or object: `set`
of an existing key overwrites in place, a new key is appended, matching JS
property/entry order. -/
def mapSet {α : Type} (m : List (String × α)) (k : String) (v : α) :
    List (String × α) :=
  match m with
  | [] => [(k, v)]
  | (k', v') :: rest => if k' = k then (k', v) :: rest else (k', v') :: mapSet rest k v

/-- `Map.get` / property read; `none` models `undefined`. -/
def mapGet {α : Type} (m : List (String × α)) (k : String) : Option α :=
  (m.find? (fun p => p.1 = k)).map (·.2)

/-- Read a field of an insertion-ordered object (`o[k]`). -/
def getF (o : List (String × Value)) (k : String) : Option Value :=
  mapGet o k

/-- Write a field of an insertion-ordered object (`o[k] = v`). -/
def setF (o : List (String × Value)) (k : String) (v : Value) :
    List (String × Value) :=
  mapSet o k v

/-- `Object.assign(target, src)`: copy every field of `src` onto `target` in
`src`'s key order. -/
def assignObj (target src : List (String × Value)) : List (String × Value) :=
  src.foldl (fun acc p => setF acc p.1 p.2) target

/-- `Object.keys(v)` paired with the corresponding values.  Objects enumerate
their fields; arrays enumerate their indices; strings enumerate their
characters; primitives have no enumerable keys. -/
def jsEntries : Value → List (String × Value)
  | .vObj fields => fields
  | .vArr elems => elems.enum.map (fun p => (toString p.1, p.2))
  | .vStr s => s.data.enum.map (fun p => (toString p.1, Value.vStr (String.mk [p.2])))
  | _ => []

/-- A workflow step as the executor consumes it (`step.dependsOn || []` is
modelled by making `dependsOn` total with default `[]`).  The `config` and
`llm` fields are forwarded untouched to the executor binding; `llm` is folded
into the opaque binding and `config` is kept as a string map. -/
structure WorkflowStep where
  instanceId : String
  moduleId : String
  config : List (String × String) := []
  dependsOn : List String := []
deriving DecidableEq

/-- JS `Set.add`: insertion-ordered, duplicate-free. -/
def setInsert (s : List String) (x : String) : List String :=
  if x ∈ s then s else s ++ [x]

def instanceIds (steps : List WorkflowStep) : List String :=
  steps.map WorkflowStep.instanceId

/-- Insertion-ordered deduplication: the key list a JS `Map`/`Set` holds after
inserting each step's instanceId in order. -/
def dedupKeys (steps : List WorkflowStep) : List String :=
  steps.foldl (fun l s => setInsert l s.instanceId) []

/-- One field-merge step of `gatherInputs` (parallel-executor.ts lines
192-211): merge the value `w` found under some key of the current source into
the previously merged value `old` at that key (`none` models `undefined`).
* arrays: a falsy previous value is reset to `[]`, then the source array is
  pushed; pushing onto a truthy non-array throws a `TypeError`, modelled as
  `.error`;
* objects: `Object.assign` onto the previous value — onto a falsy previous
  value this yields the source object; onto a truthy primitive it mutates a
  transient wrapper, leaving the stored value unchanged; string-keyed
  properties assigned onto an array are not representable in `Value`, so the
  array is kept;
* anything else is a scalar, stored only while the key is still `undefined`. -/
def mergeField (old : Option Value) (w : Value) : Except String Value :=
  match w with
  | .vArr xs =>
      match old with
      | none => .ok (.vArr xs)
      | some o =>
          if jsTruthy o then
            match o with
            | .vArr ys => .ok (.vArr (ys ++ xs))
            | _ => .error "TypeError: mergedInput[key].push is not a function"
          else .ok (.vArr xs)
  | .vObj fs =>
      match old with
      | none => .ok (.vObj fs)
      | some o =>
          if jsTruthy o then
            match o with
            | .vObj os => .ok (.vObj (assignObj os fs))
            | other => .ok other
          else .ok (.vObj fs)
  | w =>
      match old with
      | none => .ok w
      | some o => .ok o

/-- The `Object.keys(depNode.result).forEach` loop (lines 192-211): merge each
enumerable entry of one source in order; a thrown `TypeError` aborts. -/
def mergeEntries (acc : List (String × Value)) :
    List (String × Value) → Except String (List (String × Value))
  | [] => .ok acc
  | (k, w) :: rest =>
      match mergeField (getF acc k) w with
      | .ok mv => mergeEntries (setF acc k mv) rest
      | .error e => .error e

/-- Merge one dependency's (truthy) result into the accumulated merged input. -/
def mergeSource (acc : List (String × Value)) (v : Value) :
    Except String (List (String × Value)) :=
  mergeEntries acc (jsEntries v)

/-- The `dependencies.forEach` loop of the multi-dependency case (lines
186-213): sources with missing nodes or falsy results are skipped; a truthy
result joins `allResults` and its fields are merged. -/
def mergeDeps (res : String → Option Value) :
    List (String × Value) → List Value → List String →
    Except String (List (String × Value) × List Value)
  | acc, allR, [] => .ok (acc, allR)
  | acc, allR, d :: rest =>
      match res d with
      | some v =>
          if jsTruthy v then
            match mergeSource acc v with
            | .ok m => mergeDeps res m (allR ++ [v]) rest
            | .error e => .error e
          else mergeDeps res acc allR rest
      | none => mergeDeps res acc allR rest

/-- `gatherInputs` (lines 169-220), abstracted over the per-instanceId result
lookup `res` (`none` models a missing node or an `undefined` result).
* no dependencies: `null` (modelled `none`);
* one dependency: `depNode?.result || null` — the result if truthy else null;
* several: fold the truthy results into one merged record, then attach
  `_sources` and `_allResults`. -/
def gatherInputsFrom (res : String → Option Value) (step : WorkflowStep) :
    Except String (Option Value) :=
  match step.dependsOn with
  | [] => .ok none
  | [d] =>
      .ok (match res d with
           | some v => if jsTruthy v then some v else none
           | none => none)
  | deps =>
      match mergeDeps res [] [] deps with
      | .ok st =>
          .ok (some (.vObj (setF (setF st.1 "_sources" (.vArr (deps.map Value.vStr)))
            "_allResults" (.vArr st.2))))
      | .error e => .error e

/-- Node status, `ExecutionNode.status` in the source. -/
inductive NodeStatus where
  | pending
  | running
  | completed
  | failed
deriving DecidableEq

/-- `ExecutionNode` (lines 5-10). -/
structure ExecutionNode where
  step : WorkflowStep
  status : NodeStatus
  result : Option Value := none
  error : Option String := none

/-- `ExecutionGraph` (lines 12-16): nodes keyed by instanceId plus the
`completed` and `running` sets. -/
structure ExecutionGraph where
  nodes : List (String × ExecutionNode)
  completed : List String
  running : List String

/-- A module capability descriptor, reduced to the fields the engine and
inspector read (`types.ts`). -/
structure DataType where
  type : String
  required : Bool := false
deriving DecidableEq

structure ModuleIO where
  inputs : List DataType := []
  outputs : List DataType := []
deriving DecidableEq

structure Module where
  id : String
  name : String := ""
  category : String := ""
  io : ModuleIO := {}
deriving DecidableEq

/-- The executor's external collaborators: `ModuleStorage.getById`, and the
step executor binding (`hasRealImplementation` / `executeModule` /
`simulateExecution` combined into one opaque callable whose `.error` models a
thrown exception). -/
structure Env where
  getModule : String → Option Module
  runModule : Module → WorkflowStep → Option Value → Except String Value

namespace ParallelWorkflowExecutor

/-- Constructor (lines 26-41): one `pending` node per step, keyed by
`instanceId` (a duplicated id overwrites its earlier node, as `Map.set` does). -/
def initGraph (steps : List WorkflowStep) : ExecutionGraph :=
  { nodes := steps.foldl
      (fun m s => mapSet m s.instanceId { step := s, status := .pending }) []
    completed := []
    running := [] }

/-- `getReadySteps` (lines 85-106): pending nodes whose every dependency is in
`completed`, in node insertion order. -/
def getReadySteps (g : ExecutionGraph) : List ExecutionNode :=
  (g.nodes.filter (fun p =>
      decide (p.2.status = .pending) &&
      p.2.step.dependsOn.all (fun depId => decide (depId ∈ g.completed)))).map (·.2)

/-- The result stored for an instanceId; `none` models a missing node or a
node whose `result` is still `undefined`. -/
def resOf (g : ExecutionGraph) (id : String) : Option Value :=
  (mapGet g.nodes id).bind (·.result)

/-- `gatherInputs` reading dependency results from the execution graph. -/
def gatherInputs (g : ExecutionGraph) (step : WorkflowStep) :
    Except String (Option Value) :=
  gatherInputsFrom (resOf g) step

/-- The body of `executeStep`'s `try` block once the node is marked running
(lines 122-137): module lookup, input gathering, executor call. -/
def stepAttempt (env : Env) (g : ExecutionGraph) (step : WorkflowStep) :
    Except String Value :=
  match env.getModule step.moduleId with
  | none => .error ("Module not found: " ++ step.moduleId)
  | some module => do
      let inputData ← gatherInputs g step
      env.runModule module step inputData

/-- The error record built by the `catch` branch (lines 154-157). -/
def errorRecord (msg : String) : Value :=
  .vObj [("status", .vStr "error"), ("error", .vStr msg)]

/-- `executeStep` (lines 111-163): mark the node running, attempt the module
call, then record success, or capture the failure into the node; in both
outcomes the id leaves `running` and joins `completed`.  The caller passes
only ids of ready nodes; a missing id leaves the graph unchanged
(unreachable from `execute`). -/
def executeStep (env : Env) (g : ExecutionGraph) (id : String) : ExecutionGraph :=
  match mapGet g.nodes id with
  | none => g
  | some node =>
      let g1 : ExecutionGraph :=
        { g with
          nodes := mapSet g.nodes id { node with status := .running }
          running := setInsert g.running id }
      match stepAttempt env g1 node.step with
      | .ok result =>
          { g1 with
            nodes := mapSet g1.nodes id
              { node with status := .completed, result := some result }
            running := g1.running.erase id
            completed := setInsert g1.completed id }
      | .error e =>
          { g1 with
            nodes := mapSet g1.nodes id
              { node with status := .failed, error := some e,
                          result := some (errorRecord e) }
            running := g1.running.erase id
            completed := setInsert g1.completed id }

/-- Result collection (lines 72-79): only nodes holding a truthy result enter
the returned map (node keys are distinct, so append order models `Map.set`). -/
def collectResults (g : ExecutionGraph) : List (String × Value) :=
  g.nodes.foldl (fun acc p =>
    match p.2.result with
    | some r => if jsTruthy r then acc ++ [(p.1, r)] else acc
    | none => acc) []

def deadlockMsg : String := "Workflow deadlock detected - no steps can execute"

/-- The driving `while` loop of `execute` (lines 49-70).  One recursive call
models one iteration; `none` models a loop still running after `fuel`
iterations.  A batch of ready steps runs as a left fold: ready steps never
depend on one another and each `executeStep` writes only its own node and the
shared sets, so the fold is observationally equivalent to `Promise.all`. -/
def executeLoop (env : Env) (total : Nat) :
    Nat → ExecutionGraph →
    Option (Except String (List (String × Value) × ExecutionGraph))
  | 0, g =>
      if g.completed.length < total then none
      else some (.ok (collectResults g, g))
  | fuel + 1, g =>
      if g.completed.length < total then
        let ready := getReadySteps g
        if ready.isEmpty then
          if g.running.isEmpty then some (.error deadlockMsg)
          else executeLoop env total fuel g
        else
          executeLoop env total fuel
            (ready.foldl (fun g' node => executeStep env g' node.step.instanceId) g)
      else some (.ok (collectResults g, g))

/-- `execute` (lines 46-80).  The fuel `steps.length + 1` is enough for every
run that does not hang: each productive iteration completes at least one node
and there are at most `steps.length` nodes. -/
def execute (env : Env) (steps : List WorkflowStep) :
    Option (Except String (List (String × Value) × ExecutionGraph)) :=
  executeLoop env steps.length (steps.length + 1) (initGraph steps)

/-- Return type of `analyzeParallelism` (lines 253-257).  `Math.max()` of an
empty spread is `-Infinity`, which `Option Nat` models as `none`. -/
structure ParallelismAnalysis where
  maxParallelism : Option Nat
  levels : List (List String)
  independentPaths : Nat
deriving DecidableEq

/-- Inner body of the level loop (lines 288-297): delete `stepId` from
`remaining`, then lower the in-degree of every still-remaining step that
depends on it (`(inDegree.get(...) || 1) - 1` equals saturating `- 1`). -/
def removeAndDecrement (steps : List WorkflowStep)
    (rd : List String × (String → Nat)) (stepId : String) :
    List String × (String → Nat) :=
  let remaining := rd.1.erase stepId
  let inDeg := steps.foldl (fun f s =>
    if stepId ∈ s.dependsOn ∧ s.instanceId ∈ remaining then
      fun x => if x = s.instanceId then f x - 1 else f x
    else f) rd.2
  (remaining, inDeg)

/-- The initial in-degree map (lines 262-265): each step's id maps to its
`dependsOn.length`, a later duplicate id overwriting an earlier one; ids
outside the map read as an irrelevant default. -/
def inDegInit (steps : List WorkflowStep) : String → Nat :=
  steps.foldl
    (fun f s => fun x => if x = s.instanceId then s.dependsOn.length else f x)
    (fun _ => 0)

/-- The level-collection `while` loop (lines 271-298): collect all remaining
ids of in-degree zero into one level and remove them; an empty level means a
circular dependency and stops with the partial level list. -/
def levelLoop (steps : List WorkflowStep) :
    Nat → List String → (String → Nat) → List (List String)
  | 0, _, _ => []
  | fuel + 1, remaining, inDeg =>
      if remaining.isEmpty then []
      else
        let level := remaining.filter (fun id => decide (inDeg id = 0))
        if level.isEmpty then []
        else
          let rd := level.foldl (removeAndDecrement steps) (remaining, inDeg)
          level :: levelLoop steps fuel rd.1 rd.2

/-- `analyzeParallelism` (lines 253-307).  `remaining` is the insertion-order
set of instanceIds; in-degrees start at `dependsOn.length` (later duplicate
ids overwrite earlier ones, ids outside the map read as an irrelevant
default).  The fuel `remaining.length + 1` is enough: every executed
iteration removes at least one id. -/
def analyzeParallelism (steps : List WorkflowStep) : ParallelismAnalysis :=
  let remaining := dedupKeys steps
  let inDeg := inDegInit steps
  let levels := levelLoop steps (remaining.length + 1) remaining inDeg
  { maxParallelism :=
      match levels.map List.length with
      | [] => none
      | n :: ns => some (ns.foldl max n)
    levels := levels
    independentPaths :=
      match levels.head? with
      | some l => if l.length = 0 then 1 else l.length
      | none => 1 }

end ParallelWorkflowExecutor

namespace WorkflowInspector

structure ModuleConnection where
  fromModule : String
  toModule : String
  dataType : String
  confidence : Rat
deriving DecidableEq

structure DependencyNode where
  moduleId : String
  level : Nat
  dependencies : List String
  outputs : List DataType
deriving DecidableEq

structure WorkflowValidationResult where
  isValid : Bool
  errors : List String
  warnings : List String
  suggestedConnections : List ModuleConnection
  dependencyGraph : List DependencyNode
deriving DecidableEq

/-- `modules.forEach(module => moduleMap.set(module.id, module))`. -/
def buildModuleMap (modules : List Module) : List (String × Module) :=
  modules.foldl (fun m md => mapSet m md.id md) []

/-- Diagnostic strings of the inspector (`\x27` is the ASCII apostrophe). -/
def moduleNotFoundMsg (i : Nat) (moduleId : String) : String :=
  "Step " ++ toString (i + 1) ++ ": Module \x27" ++ moduleId ++ "\x27 not found"

def missingInputMsg (i : Nat) (t name : String) : String :=
  "Step " ++ toString (i + 1) ++ ": Missing required input \x27" ++ t ++
    "\x27 for module \x27" ++ name ++ "\x27"

def optionalInputMsg (i : Nat) (t name : String) : String :=
  "Step " ++ toString (i + 1) ++ ": Optional input \x27" ++ t ++
    "\x27 not available for module \x27" ++ name ++ "\x27"

def noPrevProvidesMsg (i : Nat) (t name : String) : String :=
  "Step " ++ toString (i + 1) ++ ": No previous step provides required \x27" ++
    t ++ "\x27 for \x27" ++ name ++ "\x27"

/-- `validateDataFlow` (part_005 lines 264-292), structurally: walk the steps
carrying the running index and the available-dataType set; a step with an
unknown module contributes one error and is otherwise skipped; required inputs
not yet available yield errors and optional ones warnings (in input order, as
the source pushes them); then the step's outputs join the set. -/
def validateDataFlowAux (moduleMap : List (String × Module)) :
    List WorkflowStep → Nat → List String → List String × List String
  | [], _, _ => ([], [])
  | step :: rest, index, availableData =>
      match mapGet moduleMap step.moduleId with
      | none =>
          let p := validateDataFlowAux moduleMap rest (index + 1) availableData
          (moduleNotFoundMsg index step.moduleId :: p.1, p.2)
      | some module =>
          let stepErrors := (module.io.inputs.filter (fun inp =>
              inp.required && decide (inp.type ∉ availableData))).map
            (fun inp => missingInputMsg index inp.type module.name)
          let stepWarnings := (module.io.inputs.filter (fun inp =>
              !inp.required && decide (inp.type ∉ availableData))).map
            (fun inp => optionalInputMsg index inp.type module.name)
          let available' := module.io.outputs.foldl
            (fun s o => setInsert s o.type) availableData
          let p := validateDataFlowAux moduleMap rest (index + 1) available'
          (stepErrors ++ p.1, stepWarnings ++ p.2)

/-- `validateDataFlow`: the `(errors, warnings)` pair. -/
def validateDataFlow (steps : List WorkflowStep)
    (moduleMap : List (String × Module)) : List String × List String :=
  validateDataFlowAux moduleMap steps 0 []

/-- The inner `for i < index` scan of `checkMissingDependencies` (lines
345-351): does some earlier step's found module output type `t`? -/
def someEarlierProvides (steps : List WorkflowStep)
    (moduleMap : List (String × Module)) (index : Nat) (t : String) : Bool :=
  (steps.take index).any (fun s =>
    match mapGet moduleMap s.moduleId with
    | some m => m.io.outputs.any (fun o => o.type == t)
    | none => false)

/-- `checkMissingDependencies` (lines 324-361).  The source's first pass
builds a `providedData` set the second pass never reads (dead code, omitted).
A required input of a found module is flagged when no earlier step's found
module outputs its type. -/
def checkMissingDependencies (steps : List WorkflowStep)
    (moduleMap : List (String × Module)) : List String :=
  (steps.enum.map (fun p =>
    match mapGet moduleMap p.2.moduleId with
    | none => []
    | some module =>
        (module.io.inputs.filter (fun inp =>
            inp.required && !someEarlierProvides steps moduleMap p.1 inp.type)).map
          (fun inp => noPrevProvidesMsg p.1 inp.type module.name))).flatten

/-- `buildDependencyGraph` (lines 229-262), structurally: the type→index map
is a function (`none` = absent); a step with an unknown module contributes no
entry; inputs record either a missing-required note or the providing step
index; then the step's outputs overwrite the map at the current index. -/
def buildDependencyGraphAux (moduleMap : List (String × Module)) :
    List WorkflowStep → Nat → (String → Option Nat) → List DependencyNode
  | [], _, _ => []
  | step :: rest, index, availableData =>
      match mapGet moduleMap step.moduleId with
      | none => buildDependencyGraphAux moduleMap rest (index + 1) availableData
      | some module =>
          let dependencies := module.io.inputs.foldl (fun acc inp =>
            if inp.required && (availableData inp.type).isNone then
              acc ++ ["Missing required input: " ++ inp.type]
            else
              match availableData inp.type with
              | some j => acc ++ [inp.type ++ " from step " ++ toString j]
              | none => acc) []
          let available' := module.io.outputs.foldl
            (fun f o => fun t => if t = o.type then some index else f t) availableData
          { moduleId := step.moduleId, level := index,
            dependencies := dependencies, outputs := module.io.outputs } ::
            buildDependencyGraphAux moduleMap rest (index + 1) available'

def buildDependencyGraph (steps : List WorkflowStep)
    (moduleMap : List (String × Module)) : List DependencyNode :=
  buildDependencyGraphAux moduleMap steps 0 (fun _ => none)

/-- `generateSuggestedConnections` (lines 294-322), structurally, carrying the
type→providing-module map. -/
def generateSuggestedConnectionsAux (moduleMap : List (String × Module)) :
    List WorkflowStep → List (String × String) → List ModuleConnection
  | [], _ => []
  | step :: rest, availableOutputs =>
      match mapGet moduleMap step.moduleId with
      | none => generateSuggestedConnectionsAux moduleMap rest availableOutputs
      | some md =>
          let sugg := md.io.inputs.foldl (fun acc inp =>
            match mapGet availableOutputs inp.type with
            | some src =>
                let conn : ModuleConnection :=
                  { fromModule := src, toModule := md.id, dataType := inp.type,
                    confidence := if inp.required then (9 : Rat) / 10 else (6 : Rat) / 10 }
                acc ++ [conn]
            | none => acc) []
          let avail' := md.io.outputs.foldl
            (fun m o => mapSet m o.type md.id) availableOutputs
          sugg ++ generateSuggestedConnectionsAux moduleMap rest avail'

def generateSuggestedConnections (steps : List WorkflowStep)
    (moduleMap : List (String × Module)) : List ModuleConnection :=
  generateSuggestedConnectionsAux moduleMap steps []

/-- The fixed high-risk module set (`highRiskModules` in
`suggestHumanInterventionModules`, `riskModules` in the auto-fix). -/
def riskModules : List String := ["quotation", "discount-pricing", "email-interact"]

/-- `module?.category || 'unknown'`. -/
def categoryOf (moduleMap : List (String × Module)) (moduleId : String) : String :=
  match mapGet moduleMap moduleId with
  | some m => if m.category == "" then "unknown" else m.category
  | none => "unknown"

/-- `suggestHumanInterventionModules` (lines 441-497). -/
def suggestHumanInterventionModules (steps : List WorkflowStep)
    (moduleMap : List (String × Module)) (errors : List String) : List String :=
  let hasHumanDecision := steps.any (fun s => s.moduleId == "human-decision")
  let hasManualInput := steps.any (fun s => s.moduleId == "human-manual-input")
  let missingDataErrors := errors.filter (fun e => jsIncludes e "Missing required input")
  let noDataSourceErrors := errors.filter (fun e => jsIncludes e "No previous step provides")
  let s1 := if missingDataErrors.length > 0 && !hasManualInput then
      ["💡 Missing data detected. Add \"Human Manual Input\" for data entry by team members"]
    else []
  let s2 := if noDataSourceErrors.length > 0 && !hasManualInput then
      ["💡 Add \"Human Manual Input\" to manually enter missing information"]
    else []
  let hasHighRiskModules := steps.any (fun s => riskModules.contains s.moduleId)
  let s3 := if hasHighRiskModules && !hasHumanDecision then
      ["💡 Financial/communication modules detected. Add \"Human Decision\" for approval checkpoints"]
    else []
  let s4 := if steps.length > 5 && !hasHumanDecision then
      ["💡 Complex workflow detected. Add \"Human Decision\" for review and approval gates"]
    else []
  let categories := steps.map (fun s => categoryOf moduleMap s.moduleId)
  let gaps := (categories.zip categories.tail).foldl (fun acc p =>
    if p.1 == "data_collection" && p.2 == "communication" && !hasManualInput then
      acc ++ ["💡 Data gap detected: Add \"Human Manual Input\" to enrich data between collection and communication"]
    else acc) []
  let s5 := match categories.getLast? with
    | some c =>
        if c == "analysis" && !hasHumanDecision then
          ["💡 Analysis endpoint detected. Add \"Human Decision\" to review insights and approve next actions"]
        else []
    | none => []
  s1 ++ s2 ++ s3 ++ s4 ++ gaps ++ s5

/-- `validateWorkflow` (lines 193-227): assemble all diagnostics;
`isValid = errors.length === 0`. -/
def validateWorkflow (steps : List WorkflowStep) (modules : List Module) :
    WorkflowValidationResult :=
  let moduleMap := buildModuleMap modules
  let df := validateDataFlow steps moduleMap
  let errors := df.1 ++ checkMissingDependencies steps moduleMap
  let warnings := df.2 ++ suggestHumanInterventionModules steps moduleMap errors
  { isValid := errors.isEmpty
    errors := errors
    warnings := warnings
    suggestedConnections := generateSuggestedConnections steps moduleMap
    dependencyGraph := buildDependencyGraph steps moduleMap }

/-- The synthetic manual-data-entry step (lines 518-527); `now` models
`Date.now()`. -/
def manualInputStep (now : Nat) : WorkflowStep :=
  { instanceId := "human-manual-input-" ++ toString now
    moduleId := "human-manual-input"
    config := [("inputType", "Workflow data entry"),
      ("instruction", "Please enter the required data for subsequent workflow steps"),
      ("requiredFields", "Data as needed by workflow modules"),
      ("assignee", "data-entry@company.com")] }

/-- The synthetic approval step spliced before a high-risk step (lines
543-551); `i` is the loop index at insertion time. -/
def decisionStep (now i : Nat) (moduleName : String) : WorkflowStep :=
  { instanceId := "human-decision-" ++ toString now ++ "-" ++ toString i
    moduleId := "human-decision"
    config := [("approver", "manager@company.com"),
      ("instruction", "Please review and approve " ++ moduleName ++ " before execution"),
      ("decisionType", "Approval")] }

/-- The final review step appended after a trailing analysis step (lines
565-573). -/
def finalDecisionStep (now : Nat) : WorkflowStep :=
  { instanceId := "human-decision-final-" ++ toString now
    moduleId := "human-decision"
    config := [("approver", "manager@company.com"),
      ("instruction", "Please review analysis results and decide on next actions"),
      ("decisionType", "Strategic Decision")] }

/-- `moduleMap.get(id)?.name || 'this operation'`. -/
def riskModuleName (moduleMap : List (String × Module)) (moduleId : String) : String :=
  match mapGet moduleMap moduleId with
  | some m => if m.name == "" then "this operation" else m.name
  | none => "this operation"

/-- Phase 2 of the auto-fix (lines 533-558): walk the list splicing an
approval step before each high-risk step not already preceded by one.  `i` is
the source's loop index into the mutated array and `prev` the moduleId at
`i - 1` (`none` at the front); after an insertion the index advances past the
inserted and the risk step, as the source's double increment does. -/
def insertDecisions (moduleMap : List (String × Module)) (now : Nat) :
    Option String → Nat → List WorkflowStep → List WorkflowStep × List String
  | _, _, [] => ([], [])
  | prev, i, s :: rest =>
      if riskModules.contains s.moduleId && !(prev == some "human-decision") then
        let moduleName := riskModuleName moduleMap s.moduleId
        let p := insertDecisions moduleMap now (some s.moduleId) (i + 2) rest
        (decisionStep now i moduleName :: s :: p.1,
         ("Added \"Human Decision\" approval checkpoint before " ++ moduleName) :: p.2)
      else
        let p := insertDecisions moduleMap now (some s.moduleId) (i + 1) rest
        (s :: p.1, p.2)

/-- `autoFixWorkflowWithHumanModules` (lines 499-581).  A valid workflow is
returned unchanged; otherwise: one manual-input step is prepended when any
error matches the two missing-data patterns, approval steps are spliced before
unguarded high-risk steps, and a final review step is appended after a
trailing analysis step.  An empty step list always validates as valid, so the
last-step read is modelled as skipping when the list is empty. -/
def autoFixWorkflowWithHumanModules (now : Nat) (steps : List WorkflowStep)
    (modules : List Module) : List WorkflowStep × List String :=
  let moduleMap := buildModuleMap modules
  let validation := validateWorkflow steps modules
  if validation.isValid then (steps, [])
  else
    let missingDataErrors := validation.errors.filter (fun e =>
      jsIncludes e "Missing required input" || jsIncludes e "No previous step provides")
    let p1 : List WorkflowStep × List String :=
      if missingDataErrors.length > 0 then
        (manualInputStep now :: steps,
         ["Added \"Human Manual Input\" for data entry by team members"])
      else (steps, [])
    let p2 := insertDecisions moduleMap now none 0 p1.1
    let p3 : List WorkflowStep × List String :=
      match p2.1.getLast? with
      | some last =>
          match mapGet moduleMap last.moduleId with
          | some m =>
              if m.category == "analysis" && !(last.moduleId == "human-decision") then
                (p2.1 ++ [finalDecisionStep now],
                 ["Added final \"Human Decision\" to review analysis and approve next actions"])
              else (p2.1, [])
          | none => (p2.1, [])
      | none => (p2.1, [])
    (p3.1, p1.2 ++ p2.2 ++ p3.2)

end WorkflowInspector

/-! ## Derived notions used in the statements -/

namespace WorkflowInspector

/-- The available-dataType set after walking a step list from `avail`,
threading exactly as `validateDataFlow` does: a found module's output types
join the set, a missing module contributes nothing. -/
def availAfter (moduleMap : List (String × Module)) :
    List WorkflowStep → List String → List String
  | [], avail => avail
  | st :: rest, avail =>
      match mapGet moduleMap st.moduleId with
      | none => availAfter moduleMap rest avail
      | some m => availAfter moduleMap rest
          (m.io.outputs.foldl (fun s o => setInsert s o.type) avail)

/-- The step's module is found and outputs dataType `t`. -/
def providesT (moduleMap : List (String × Module)) (s : WorkflowStep)
    (t : String) : Bool :=
  match mapGet moduleMap s.moduleId with
  | some m => m.io.outputs.any (fun o => o.type == t)
  | none => false

/-- The index of the latest step before `i` whose found module outputs `t` —
the value the overwriting type→index map of `buildDependencyGraph` holds when
step `i` is inspected. -/
def latestProviderBefore (moduleMap : List (String × Module))
    (steps : List WorkflowStep) (i : Nat) (t : String) : Option Nat :=
  (((steps.enum.take i).filter (fun p => providesT moduleMap p.2 t)).map
    (·.1)).getLast?

/-- The dependency graph the amended C8 claims, walking the suffix `l` of
`steps` from index `i`: one entry per step whose module is found, recording
for each input either a missing-required note or its latest prior provider;
optional unavailable inputs record nothing. -/
def claimedDependencyGraphAux (moduleMap : List (String × Module))
    (steps : List WorkflowStep) : List WorkflowStep → Nat → List DependencyNode
  | [], _ => []
  | st :: rest, i =>
      match mapGet moduleMap st.moduleId with
      | none => claimedDependencyGraphAux moduleMap steps rest (i + 1)
      | some m =>
          { moduleId := st.moduleId
            level := i
            dependencies := m.io.inputs.foldl (fun acc inp =>
              match latestProviderBefore moduleMap steps i inp.type with
              | none =>
                  if inp.required then
                    acc ++ ["Missing required input: " ++ inp.type]
                  else acc
              | some j => acc ++ [inp.type ++ " from step " ++ toString j]) []
            outputs := m.io.outputs } ::
            claimedDependencyGraphAux moduleMap steps rest (i + 1)

def claimedDependencyGraph (moduleMap : List (String × Module))
    (steps : List WorkflowStep) : List DependencyNode :=
  claimedDependencyGraphAux moduleMap steps steps 0

/-- Step `i`'s required input of dataType `t` is flagged by the forward walk
of `validateDataFlow`: the type is not among the outputs of the found modules
before step `i` (see `availAfter`, proved equal to the walk's running set). -/
def dataFlowFlags (moduleMap : List (String × Module)) (steps : List WorkflowStep)
    (i : Nat) (t : String) : Prop :=
  ∃ st m inp, steps.get? i = some st ∧ mapGet moduleMap st.moduleId = some m ∧
    inp ∈ m.io.inputs ∧ inp.required = true ∧ inp.type = t ∧
    t ∉ availAfter moduleMap (steps.take i) []

/-- Step `i`'s required input of dataType `t` is flagged by
`checkMissingDependencies`: no step before `i` provides it. -/
def missingDepFlags (moduleMap : List (String × Module)) (steps : List WorkflowStep)
    (i : Nat) (t : String) : Prop :=
  ∃ st m inp, steps.get? i = some st ∧ mapGet moduleMap st.moduleId = some m ∧
    inp ∈ m.io.inputs ∧ inp.required = true ∧ inp.type = t ∧
    someEarlierProvides steps moduleMap i t = false

end WorkflowInspector

/-- `a` depends on `b`: some step of the list with instanceId `a` lists `b` in
its `dependsOn`. -/
def dependsOnRel (steps : List WorkflowStep) (a b : String) : Prop :=
  ∃ s ∈ steps, s.instanceId = a ∧ b ∈ s.dependsOn

/-- The `dependsOn` relation of the step list contains a cycle. -/
def hasDepCycle (steps : List WorkflowStep) : Prop :=
  ∃ a, Relation.TransGen (dependsOnRel steps) a a

/-- Every `dependsOn` entry references a step of the list. -/
def depsClosed (steps : List WorkflowStep) : Prop :=
  ∀ s ∈ steps, ∀ d ∈ s.dependsOn, d ∈ instanceIds steps

/-- Execution-graph invariant maintained by the driving loop between
iterations (the graph is at a batch boundary: nothing is running). -/
structure GraphInv (steps : List WorkflowStep) (g : ExecutionGraph) : Prop where
  keysNodup : (g.nodes.map Prod.fst).Nodup
  stepMatch : ∀ p ∈ g.nodes, p.2.step.instanceId = p.1 ∧ p.2.step ∈ steps
  runningNil : g.running = []
  complSub : ∀ x ∈ g.completed, x ∈ g.nodes.map Prod.fst
  complNodup : g.completed.Nodup
  statusIff : ∀ p ∈ g.nodes,
    (p.1 ∈ g.completed ↔ (p.2.status = .completed ∨ p.2.status = .failed))
  notRunning : ∀ p ∈ g.nodes, p.2.status ≠ .running

def isArr : Value → Bool
  | .vArr _ => true
  | _ => false

def isObjV : Value → Bool
  | .vObj _ => true
  | _ => false

def arrElems : Value → List Value
  | .vArr xs => xs
  | _ => []

def objFieldsOf : Value → List (String × Value)
  | .vObj fs => fs
  | _ => []

/-- The values the dependencies carry under field name `k`, in dependency
order, taken from truthy results only (as the merge loop does). -/
def sourceVals (res : String → Option Value) (deps : List String) (k : String) :
    List Value :=
  deps.filterMap (fun d =>
    match res d with
    | some v => if jsTruthy v then mapGet (jsEntries v) k else none
    | none => none)

/-- The merged value the specification claims for one field name, given the
values found under it across the dependencies in order: arrays concatenate,
objects shallow-merge with later sources overwriting earlier ones, otherwise
the first value is taken. -/
def claimedFieldMerge (vals : List Value) : Option Value :=
  match vals with
  | [] => none
  | v :: _ =>
      if vals.all isArr then some (.vArr ((vals.map arrElems).flatten))
      else if vals.all isObjV then
        some (.vObj ((vals.map objFieldsOf).foldl assignObj []))
      else some v

/-- Kind-homogeneity of the values found under one field name: all arrays,
all objects with duplicate-free keys, or all non-array non-object scalars. -/
def kindCompatible (vals : List Value) : Prop :=
  (∀ v ∈ vals, isArr v = true) ∨
  (∀ v ∈ vals, isObjV v = true ∧ ((objFieldsOf v).map Prod.fst).Nodup) ∨
  (∀ v ∈ vals, isArr v = false ∧ isObjV v = false)

/-! ## Concrete families and fixtures used in witnesses and counterexamples -/

/-- Distinct instanceIds `"a"`, `"aa"`, `"aaa"`, … -/
def chainId (i : Nat) : String :=
  String.mk (List.replicate (i + 1) 'a')

/-- A pure chain of `n` steps, each depending only on the previous one. -/
def chainSteps (n : Nat) : List WorkflowStep :=
  (List.range n).map (fun i =>
    { instanceId := chainId i, moduleId := "m",
      dependsOn := if i = 0 then [] else [chainId (i - 1)] })

/-- `n` fully independent steps. -/
def indepSteps (n : Nat) : List WorkflowStep :=
  (List.range n).map (fun i => { instanceId := chainId i, moduleId := "m" })

/-- A trivial environment: no module is ever found. -/
def envNoModule : Env :=
  { getModule := fun _ => none
    runModule := fun _ _ _ => .ok .vNull }

/-- An environment whose executor binding always throws. -/
def envThrow : Env :=
  { getModule := fun _ => some { id := "m" }
    runModule := fun _ _ _ => .error "boom" }

/-- An environment whose executor binding returns the falsy result `0`. -/
def envZero : Env :=
  { getModule := fun _ => some { id := "m" }
    runModule := fun _ _ _ => .ok (.vNum 0) }

/-- Dependency results with a scalar under `"k"` in the first source and an
array under `"k"` in the second. -/
def resMixed : String → Option Value
  | "A" => some (.vObj [("k", .vStr "x")])
  | "B" => some (.vObj [("k", .vArr [.vNum 1])])
  | _ => none

/-- Dependency results carrying arrays under `"products"`. -/
def resProducts : String → Option Value
  | "A" => some (.vObj [("products", .vArr [.vNum 1, .vNum 2])])
  | "B" => some (.vObj [("products", .vArr [.vNum 3])])
  | _ => none

/-- A step with two dependencies, for exercising the merge. -/
def stepAB : WorkflowStep :=
  { instanceId := "C", moduleId := "m", dependsOn := ["A", "B"] }

/-- A capability producing `products`. -/
def modProv : Module :=
  { id := "prov", name := "Prov", category := "data_collection",
    io := { outputs := [{ type := "products" }] } }

/-- A second capability also producing `products`. -/
def modProv2 : Module :=
  { id := "prov2", name := "Prov2", category := "data_collection",
    io := { outputs := [{ type := "products" }] } }

/-- A capability requiring `products`. -/
def modCons : Module :=
  { id := "cons", name := "Cons", category := "processing",
    io := { inputs := [{ type := "products", required := true }] } }

def fixtureModules : List Module := [modProv, modProv2, modCons]

/-- A step bound to the capability with the given id. -/
def stepOf (m : String) : WorkflowStep :=
  { instanceId := "s-" ++ m, moduleId := m }

/-- A single dependency-free step. -/
def stepA : WorkflowStep := { instanceId := "A", moduleId := "m" }

/-- The graph `execute envZero [stepA]` ends in: the step completed with the
falsy result `0`. -/
def gfinZero : ExecutionGraph :=
  { nodes := [("A", { step := stepA, status := .completed,
                      result := some (.vNum 0) })]
    completed := ["A"]
    running := [] }

/-- Two steps depending on each other — a 2-cycle. -/
def cyclePair : List WorkflowStep :=
  [{ instanceId := "A", moduleId := "m", dependsOn := ["B"] },
   { instanceId := "B", moduleId := "m", dependsOn := ["A"] }]

/-- One step whose dependency names no step of the list. -/
def danglingStep : List WorkflowStep :=
  [{ instanceId := "A", moduleId := "m", dependsOn := ["Z"] }]

/-! ## Association-list and set lemmas -/

theorem mapGet_nil {α : Type} (k : String) : mapGet ([] : List (String × α)) k = none := rfl

theorem mapGet_cons {α : Type} (k' : String) (v' : α) (rest : List (String × α)) (k : String) :
    mapGet ((k', v') :: rest) k = if k' = k then some v' else mapGet rest k := by
  by_cases h : k' = k <;> simp [mapGet, List.find?_cons, h]

theorem mapGet_mapSet_self {α : Type} (m : List (String × α)) (k : String) (v : α) :
    mapGet (mapSet m k v) k = some v := by
  induction m with
  | nil => simp [mapSet, mapGet_cons]
  | cons p rest ih =>
      obtain ⟨k', v'⟩ := p
      by_cases h : k' = k <;> simp [mapSet, h, mapGet_cons, ih]

theorem mapGet_mapSet_ne {α : Type} (m : List (String × α)) (k k' : String) (v : α)
    (h : k ≠ k') : mapGet (mapSet m k v) k' = mapGet m k' := by
  induction m with
  | nil => simp [mapSet, mapGet_cons, mapGet_nil, h]
  | cons p rest ih =>
      obtain ⟨k₀, v₀⟩ := p
      by_cases h0 : k₀ = k
      · subst h0
        simp [mapSet, mapGet_cons, h]
      · simp [mapSet, h0, mapGet_cons, ih]

theorem keys_mapSet {α : Type} (m : List (String × α)) (k : String) (v : α) :
    (mapSet m k v).map Prod.fst =
      if k ∈ m.map Prod.fst then m.map Prod.fst else m.map Prod.fst ++ [k] := by
  induction m with
  | nil => simp [mapSet]
  | cons p rest ih =>
      obtain ⟨k₀, v₀⟩ := p
      by_cases h0 : k₀ = k
      · subst h0; simp [mapSet]
      · have hne : ¬ k = k₀ := fun hh => h0 hh.symm
        by_cases hm : k ∈ rest.map Prod.fst
        · simp [mapSet, h0, ih, hm, hne]
        · simp [mapSet, h0, ih, hm, hne]

theorem mem_mapSet {α : Type} (m : List (String × α)) (k : String) (v : α)
    (p : String × α) (hp : p ∈ mapSet m k v) : p ∈ m ∨ p = (k, v) := by
  induction m with
  | nil => simp [mapSet] at hp; simp [hp]
  | cons q rest ih =>
      obtain ⟨k₀, v₀⟩ := q
      by_cases h0 : k₀ = k
      · subst h0
        simp [mapSet] at hp
        rcases hp with hp | hp
        · right; simp [hp]
        · left; simp [hp]
      · simp [mapSet, h0] at hp
        rcases hp with hp | hp
        · left; simp [hp]
        · rcases ih hp with h | h
          · left; simp [h]
          · right; exact h

theorem mapGet_eq_some_of_mem {α : Type} (m : List (String × α))
    (hnd : (m.map Prod.fst).Nodup) (p : String × α) (hp : p ∈ m) :
    mapGet m p.1 = some p.2 := by
  induction m with
  | nil => cases hp
  | cons q rest ih =>
      obtain ⟨k₀, v₀⟩ := q
      simp only [List.map_cons, List.nodup_cons] at hnd
      rcases List.mem_cons.mp hp with h | h
      · subst h; simp [mapGet_cons]
      · have hne : k₀ ≠ p.1 := by
          intro hh
          exact hnd.1 (hh ▸ (List.mem_map.mpr ⟨p, h, rfl⟩))
        simp [mapGet_cons, hne, ih hnd.2 h]

theorem mem_of_mapGet_eq_some {α : Type} (m : List (String × α)) (k : String)
    (v : α) (h : mapGet m k = some v) : (k, v) ∈ m := by
  induction m with
  | nil => simp [mapGet_nil] at h
  | cons q rest ih =>
      obtain ⟨k₀, v₀⟩ := q
      rw [mapGet_cons] at h
      by_cases h0 : k₀ = k
      · simp [h0] at h
        simp [h0, h]
      · simp [h0] at h
        exact List.mem_cons_of_mem _ (ih h)

theorem mem_setInsert (s : List String) (x y : String) :
    y ∈ setInsert s x ↔ y ∈ s ∨ y = x := by
  unfold setInsert
  split
  · constructor
    · exact fun h => Or.inl h
    · rintro (h | rfl) <;> [exact h; assumption]
  · simp

theorem nodup_setInsert (s : List String) (x : String) (h : s.Nodup) :
    (setInsert s x).Nodup := by
  unfold setInsert
  split
  · exact h
  · next hx =>
      refine List.nodup_append.mpr ⟨h, List.nodup_singleton x, ?_⟩
      intro a ha hb
      simp only [List.mem_singleton] at hb
      subst hb
      exact hx ha

theorem subset_setInsert (s : List String) (x : String) : s ⊆ setInsert s x := by
  intro y hy
  exact (mem_setInsert s x y).mpr (Or.inl hy)

theorem length_setInsert_ge (s : List String) (x : String) :
    s.length ≤ (setInsert s x).length := by
  unfold setInsert
  split <;> simp

theorem length_setInsert_of_not_mem (s : List String) (x : String) (h : x ∉ s) :
    (setInsert s x).length = s.length + 1 := by
  simp [setInsert, h]

theorem mapGet_eq_none {α : Type} (m : List (String × α)) (k : String)
    (h : k ∉ m.map Prod.fst) : mapGet m k = none := by
  induction m with
  | nil => rfl
  | cons p rest ih =>
      obtain ⟨k₀, v₀⟩ := p
      simp only [List.map_cons, List.mem_cons] at h
      push_neg at h
      have : k₀ ≠ k := fun hh => h.1 hh.symm
      simp [mapGet_cons, this, ih h.2]

theorem mapSet_fresh {α : Type} (m : List (String × α)) (k : String) (v : α)
    (h : k ∉ m.map Prod.fst) : mapSet m k v = m ++ [(k, v)] := by
  induction m with
  | nil => rfl
  | cons p rest ih =>
      obtain ⟨k₀, v₀⟩ := p
      simp only [List.map_cons, List.mem_cons] at h
      push_neg at h
      have hne : ¬ k₀ = k := fun hh => h.1 hh.symm
      simp [mapSet, hne, ih h.2]

/-! ## Merge lemmas for `gatherInputs` -/

theorem assignObj_fresh (tgt src : List (String × Value))
    (hfresh : ∀ p ∈ src, p.1 ∉ tgt.map Prod.fst)
    (hnd : (src.map Prod.fst).Nodup) : assignObj tgt src = tgt ++ src := by
  induction src generalizing tgt with
  | nil => simp [assignObj]
  | cons p rest ih =>
      simp only [List.map_cons, List.nodup_cons] at hnd
      have h1 : setF tgt p.1 p.2 = tgt ++ [p] :=
        mapSet_fresh tgt p.1 p.2 (hfresh p (List.mem_cons_self _ _))
      have h2 : assignObj tgt (p :: rest) = assignObj (setF tgt p.1 p.2) rest := rfl
      rw [h2, h1, ih (tgt ++ [p]) ?_ hnd.2]
      · simp
      · intro q hq
        simp only [List.map_append, List.mem_append, List.map_cons]
        rintro (hmem | hmem)
        · exact hfresh q (List.mem_cons_of_mem _ hq) hmem
        · simp only [List.map_nil, List.mem_cons, List.not_mem_nil, or_false] at hmem
          exact hnd.1 (hmem ▸ List.mem_map.mpr ⟨q, hq, rfl⟩)

theorem assignObj_nil_of_nodup (src : List (String × Value))
    (hnd : (src.map Prod.fst).Nodup) : assignObj [] src = src := by
  simpa using assignObj_fresh [] src (by simp) hnd

theorem kindCompatible_mono {l l' : List Value} (hsub : l' ⊆ l)
    (h : kindCompatible l) : kindCompatible l' := by
  rcases h with h | h | h
  · exact Or.inl fun v hv => h v (hsub hv)
  · exact Or.inr (Or.inl fun v hv => h v (hsub hv))
  · exact Or.inr (Or.inr fun v hv => h v (hsub hv))

theorem mergeField_none (w : Value) : mergeField none w = .ok w := by
  cases w <;> rfl

theorem mergeField_arr_arr (ys xs : List Value) :
    mergeField (some (.vArr ys)) (.vArr xs) = .ok (.vArr (ys ++ xs)) := rfl

theorem mergeField_obj_obj (os fs : List (String × Value)) :
    mergeField (some (.vObj os)) (.vObj fs) = .ok (.vObj (assignObj os fs)) := rfl

theorem mergeField_scalar_keep (o w : Value) (hwa : isArr w = false)
    (hwo : isObjV w = false) : mergeField (some o) w = .ok o := by
  cases w <;> simp [isArr, isObjV] at hwa hwo ⊢ <;> rfl

theorem claimed_nil : claimedFieldMerge [] = none := rfl

theorem claimed_arr (vals : List Value) (h : vals.all isArr = true)
    (hne : vals ≠ []) :
    claimedFieldMerge vals = some (.vArr ((vals.map arrElems).flatten)) := by
  cases vals with
  | nil => exact absurd rfl hne
  | cons v rest => simp only [claimedFieldMerge, h, if_true]

theorem claimed_obj (vals : List Value) (ha : vals.all isArr = false)
    (ho : vals.all isObjV = true) (hne : vals ≠ []) :
    claimedFieldMerge vals = some (.vObj ((vals.map objFieldsOf).foldl assignObj [])) := by
  cases vals with
  | nil => exact absurd rfl hne
  | cons v rest =>
      simp only [claimedFieldMerge, ha, ho, Bool.false_eq_true, if_false, if_true]

theorem claimed_scalar (v : Value) (rest : List Value)
    (ha : (v :: rest).all isArr = false) (ho : (v :: rest).all isObjV = false) :
    claimedFieldMerge (v :: rest) = some v := by
  simp only [claimedFieldMerge, ha, ho, Bool.false_eq_true, if_false]

theorem mergeField_claimed (vals : List Value) (w : Value)
    (hc : kindCompatible (vals ++ [w])) :
    ∃ mv, mergeField (claimedFieldMerge vals) w = .ok mv ∧
      claimedFieldMerge (vals ++ [w]) = some mv := by
  rcases hc with hc | hc | hc
  · -- every value an array
    have hw := hc w (by simp)
    have hv : ∀ v ∈ vals, isArr v = true := fun v hmem => hc v (by simp [hmem])
    obtain ⟨xs, rfl⟩ : ∃ xs, w = .vArr xs := by
      cases w <;> simp [isArr] at hw ⊢
    have hall2 : (vals ++ [Value.vArr xs]).all isArr = true :=
      List.all_eq_true.mpr (fun u hu => by
        rcases List.mem_append.mp hu with hu | hu
        · exact hv u hu
        · simp only [List.mem_singleton] at hu; subst hu; rfl)
    cases vals with
    | nil =>
        refine ⟨.vArr xs, mergeField_none _, ?_⟩
        rw [List.nil_append, claimed_arr _ (by rfl) (by simp)]
        simp [arrElems]
    | cons v rest =>
        have hall : (v :: rest).all isArr = true := List.all_eq_true.mpr hv
        refine ⟨.vArr (((v :: rest).map arrElems).flatten ++ xs), ?_, ?_⟩
        · rw [claimed_arr _ hall (by simp)]
          exact mergeField_arr_arr _ _
        · rw [claimed_arr _ hall2 (by simp)]
          simp [arrElems]
  · -- every value an object with duplicate-free keys
    have hw := (hc w (by simp)).1
    have hwnd := (hc w (by simp)).2
    have hv : ∀ v ∈ vals, isObjV v = true := fun v hmem => (hc v (by simp [hmem])).1
    have hvarr : ∀ v ∈ vals, isArr v = false := fun v hmem => by
      have h2 := hv v hmem
      cases v <;> simp [isArr, isObjV] at h2 ⊢
    obtain ⟨fs, rfl⟩ : ∃ fs, w = .vObj fs := by
      cases w <;> simp [isObjV] at hw ⊢
    simp only [objFieldsOf] at hwnd
    have hobj2 : (vals ++ [Value.vObj fs]).all isObjV = true :=
      List.all_eq_true.mpr (fun u hu => by
        rcases List.mem_append.mp hu with hu | hu
        · exact hv u hu
        · simp only [List.mem_singleton] at hu; subst hu; rfl)
    cases vals with
    | nil =>
        refine ⟨.vObj fs, mergeField_none _, ?_⟩
        rw [List.nil_append, claimed_obj _ (by rfl) (by rfl) (by simp)]
        simp [objFieldsOf, assignObj_nil_of_nodup fs hwnd]
    | cons v rest =>
        have harr : (v :: rest).all isArr = false := by
          apply Bool.eq_false_iff.mpr
          intro hcon
          have := List.all_eq_true.mp hcon v (List.mem_cons_self _ _)
          rw [hvarr v (List.mem_cons_self _ _)] at this
          exact Bool.false_ne_true this
        have harr2 : ((v :: rest) ++ [Value.vObj fs]).all isArr = false := by
          apply Bool.eq_false_iff.mpr
          intro hcon
          have := List.all_eq_true.mp hcon v (by simp)
          rw [hvarr v (List.mem_cons_self _ _)] at this
          exact Bool.false_ne_true this
        have hobj : (v :: rest).all isObjV = true := List.all_eq_true.mpr hv
        refine ⟨.vObj (assignObj (((v :: rest).map objFieldsOf).foldl assignObj []) fs),
          ?_, ?_⟩
        · rw [claimed_obj _ harr hobj (by simp)]
          exact mergeField_obj_obj _ _
        · rw [claimed_obj _ harr2 hobj2 (by simp)]
          simp [objFieldsOf, List.foldl_append]
  · -- every value a scalar
    have hw := hc w (by simp)
    cases vals with
    | nil =>
        refine ⟨w, mergeField_none _, ?_⟩
        rw [List.nil_append]
        cases w <;> simp [isArr, isObjV] at hw <;>
          simp [claimedFieldMerge, isArr, isObjV]
    | cons v rest =>
        have hscal := hc v (by simp)
        have harr : (v :: rest).all isArr = false := by
          apply Bool.eq_false_iff.mpr
          intro hcon
          have := List.all_eq_true.mp hcon v (List.mem_cons_self _ _)
          rw [hscal.1] at this
          exact Bool.false_ne_true this
        have hobj : (v :: rest).all isObjV = false := by
          apply Bool.eq_false_iff.mpr
          intro hcon
          have := List.all_eq_true.mp hcon v (List.mem_cons_self _ _)
          rw [hscal.2] at this
          exact Bool.false_ne_true this
        have harr2 : ((v :: rest) ++ [w]).all isArr = false := by
          apply Bool.eq_false_iff.mpr
          intro hcon
          have := List.all_eq_true.mp hcon v (by simp)
          rw [hscal.1] at this
          exact Bool.false_ne_true this
        have hobj2 : ((v :: rest) ++ [w]).all isObjV = false := by
          apply Bool.eq_false_iff.mpr
          intro hcon
          have := List.all_eq_true.mp hcon v (by simp)
          rw [hscal.2] at this
          exact Bool.false_ne_true this
        refine ⟨v, ?_, ?_⟩
        · rw [claimed_scalar v rest harr hobj]
          exact mergeField_scalar_keep v w hw.1 hw.2
        · rw [List.cons_append, claimed_scalar v (rest ++ [w]) harr2 hobj2]

theorem mergeEntries_ok (o : List (String × Value)) :
    ∀ acc : List (String × Value), (o.map Prod.fst).Nodup →
    (∀ p ∈ o, ∃ mv, mergeField (getF acc p.1) p.2 = .ok mv) →
    ∃ m, mergeEntries acc o = .ok m ∧
      (∀ k w, mapGet o k = some w →
        getF m k = (mergeField (getF acc k) w).toOption) ∧
      (∀ k, mapGet o k = none → getF m k = getF acc k) := by
  induction o with
  | nil =>
      intro acc _ _
      refine ⟨acc, rfl, fun k w hkw => ?_, fun k _ => rfl⟩
      simp [mapGet_nil] at hkw
  | cons p rest ih =>
      intro acc hnd hok
      obtain ⟨k₀, w₀⟩ := p
      simp only [List.map_cons, List.nodup_cons] at hnd
      obtain ⟨mv₀, hmv₀⟩ := hok _ (List.mem_cons_self _ _)
      have hmv₀' : mergeField (getF acc k₀) w₀ = .ok mv₀ := hmv₀
      have hstep : mergeEntries acc ((k₀, w₀) :: rest) =
          mergeEntries (setF acc k₀ mv₀) rest := by
        simp [mergeEntries, hmv₀']
      have hok' : ∀ q ∈ rest, ∃ mv, mergeField (getF (setF acc k₀ mv₀) q.1) q.2 = .ok mv := by
        intro q hq
        have hne : q.1 ≠ k₀ := by
          intro hh
          exact hnd.1 (hh ▸ List.mem_map.mpr ⟨q, hq, rfl⟩)
        have heq0 : getF (setF acc k₀ mv₀) q.1 = getF acc q.1 :=
          mapGet_mapSet_ne acc k₀ q.1 mv₀ (fun hh => hne hh.symm)
        rw [heq0]
        exact hok q (List.mem_cons_of_mem _ hq)
      obtain ⟨m, hm, hsome, hnone⟩ := ih (setF acc k₀ mv₀) hnd.2 hok'
      refine ⟨m, hstep ▸ hm, fun k w hkw => ?_, fun k hkn => ?_⟩
      · rw [mapGet_cons] at hkw
        by_cases hk : k₀ = k
        · subst hk
          rw [if_pos rfl] at hkw
          obtain rfl : w₀ = w := Option.some.inj hkw
          have h1 : mapGet rest k₀ = none := mapGet_eq_none rest k₀ hnd.1
          rw [hnone k₀ h1, hmv₀']
          exact mapGet_mapSet_self acc k₀ mv₀
        · rw [if_neg hk] at hkw
          have heq : getF (setF acc k₀ mv₀) k = getF acc k :=
            mapGet_mapSet_ne acc k₀ k mv₀ hk
          rw [hsome k w hkw, heq]
      · rw [mapGet_cons] at hkn
        by_cases hk : k₀ = k
        · rw [if_pos hk] at hkn
          cases hkn
        · rw [if_neg hk] at hkn
          have heq : getF (setF acc k₀ mv₀) k = getF acc k :=
            mapGet_mapSet_ne acc k₀ k mv₀ hk
          exact (hnone k hkn).trans heq

theorem sourceVals_nil (res : String → Option Value) (k : String) :
    sourceVals res [] k = [] := rfl

theorem sourceVals_cons_obj (res : String → Option Value) (d : String)
    (rest : List String) (k : String) (o : List (String × Value))
    (h : res d = some (.vObj o)) :
    sourceVals res (d :: rest) k = (mapGet o k).toList ++ sourceVals res rest k := by
  unfold sourceVals
  rw [List.filterMap_cons, h]
  simp only [jsTruthy, jsEntries, if_true]
  cases mapGet o k <;> simp

theorem mergeDeps_ok (res : String → Option Value) (deps : List String)
    (hres : ∀ d ∈ deps, ∃ o, res d = some (.vObj o) ∧ (o.map Prod.fst).Nodup) :
    ∀ (pvals : String → List Value) (acc : List (String × Value)) (allR : List Value),
    (∀ k, getF acc k = claimedFieldMerge (pvals k)) →
    (∀ k, kindCompatible (pvals k ++ sourceVals res deps k)) →
    ∃ m, mergeDeps res acc allR deps = .ok (m, allR ++ deps.filterMap res) ∧
      ∀ k, getF m k = claimedFieldMerge (pvals k ++ sourceVals res deps k) := by
  induction deps with
  | nil =>
      intro pvals acc allR hacc _
      refine ⟨acc, by simp [mergeDeps], fun k => ?_⟩
      rw [sourceVals_nil, List.append_nil]
      exact hacc k
  | cons d rest ih =>
      intro pvals acc allR hacc hcomp
      obtain ⟨o, ho, hond⟩ := hres d (List.mem_cons_self _ _)
      have hres' : ∀ d' ∈ rest, ∃ o', res d' = some (.vObj o') ∧ (o'.map Prod.fst).Nodup :=
        fun d' hd' => hres d' (List.mem_cons_of_mem _ hd')
      -- each field of `o` merges cleanly
      have hok : ∀ p ∈ o, ∃ mv, mergeField (getF acc p.1) p.2 = .ok mv := by
        intro p hp
        have hval : mapGet o p.1 = some p.2 := mapGet_eq_some_of_mem o hond p hp
        have hsv : sourceVals res (d :: rest) p.1 = p.2 :: sourceVals res rest p.1 := by
          rw [sourceVals_cons_obj res d rest p.1 o ho, hval]
          simp
        have hsub : pvals p.1 ++ [p.2] ⊆ pvals p.1 ++ sourceVals res (d :: rest) p.1 := by
          rw [hsv]
          intro x hx
          rcases List.mem_append.mp hx with hx | hx
          · exact List.mem_append.mpr (Or.inl hx)
          · simp only [List.mem_singleton] at hx
            subst hx
            exact List.mem_append.mpr (Or.inr (List.mem_cons_self _ _))
        obtain ⟨mv, hmv, _⟩ := mergeField_claimed (pvals p.1) p.2
          (kindCompatible_mono hsub (hcomp p.1))
        exact ⟨mv, by rw [hacc p.1]; exact hmv⟩
      obtain ⟨m₁, hm₁, hsome, hnone⟩ := mergeEntries_ok o acc hond hok
      -- the fold step on `d`
      have hstep : mergeDeps res acc allR (d :: rest) =
          mergeDeps res m₁ (allR ++ [.vObj o]) rest := by
        simp only [mergeDeps, ho, jsTruthy, if_true]
        have : mergeSource acc (.vObj o) = mergeEntries acc o := rfl
        rw [this, hm₁]
      -- the new per-key prefix
      have hjoin : ∀ k, (pvals k ++ (mapGet o k).toList) ++ sourceVals res rest k =
          pvals k ++ sourceVals res (d :: rest) k := by
        intro k
        rw [sourceVals_cons_obj res d rest k o ho, List.append_assoc]
      have hacc' : ∀ k, getF m₁ k =
          claimedFieldMerge (pvals k ++ (mapGet o k).toList) := by
        intro k
        cases hmk : mapGet o k with
        | none =>
            rw [hnone k hmk]
            simpa using hacc k
        | some w =>
            have hsv : sourceVals res (d :: rest) k = w :: sourceVals res rest k := by
              rw [sourceVals_cons_obj res d rest k o ho, hmk]
              simp
            have hsub : pvals k ++ [w] ⊆ pvals k ++ sourceVals res (d :: rest) k := by
              rw [hsv]
              intro x hx
              rcases List.mem_append.mp hx with hx | hx
              · exact List.mem_append.mpr (Or.inl hx)
              · simp only [List.mem_singleton] at hx
                subst hx
                exact List.mem_append.mpr (Or.inr (List.mem_cons_self _ _))
            obtain ⟨mv, hmv, hcl⟩ := mergeField_claimed (pvals k) w
              (kindCompatible_mono hsub (hcomp k))
            have hchain : getF m₁ k = (mergeField (getF acc k) w).toOption :=
              hsome k w hmk
            rw [hacc k, hmv] at hchain
            rw [hchain]
            simpa [Except.toOption] using hcl.symm
      have hcomp' : ∀ k,
          kindCompatible ((pvals k ++ (mapGet o k).toList) ++ sourceVals res rest k) := by
        intro k
        rw [hjoin k]
        exact hcomp k
      obtain ⟨m, hm, hpt⟩ := ih hres' (fun k => pvals k ++ (mapGet o k).toList)
        m₁ (allR ++ [.vObj o]) hacc' hcomp'
      refine ⟨m, ?_, fun k => ?_⟩
      · rw [hstep, hm, List.filterMap_cons, ho]
        simp
      · rw [hpt k, hjoin k]

/-- **C3** (amended): input merging in `gatherInputs`.  With zero dependencies
the input is absent; with one dependency whose result is a record, the input
is exactly that record with no `_sources`/`_allResults` wrapping; with two or
more dependencies whose results are records with duplicate-free keys and whose
per-field value kinds are homogeneous (arrays only meet arrays, objects only
meet objects, scalars only meet scalars), the input is a merged record that,
field by field, concatenates arrays in dependency order, shallow-merges
objects with later sources overwriting earlier ones, and otherwise keeps the
first value in dependency order — and it carries `_sources` (the dependency
instanceIds) and `_allResults` (the raw per-dependency result records). -/
theorem gatherInputs_merge_spec (res : String → Option Value) (step : WorkflowStep) :
    (step.dependsOn = [] → gatherInputsFrom res step = .ok none) ∧
    (∀ d o, step.dependsOn = [d] → res d = some (.vObj o) →
      gatherInputsFrom res step = .ok (some (.vObj o))) ∧
    (2 ≤ step.dependsOn.length →
      (∀ d ∈ step.dependsOn, ∃ o, res d = some (.vObj o) ∧ (o.map Prod.fst).Nodup) →
      (∀ k, kindCompatible (sourceVals res step.dependsOn k)) →
      ∃ m, gatherInputsFrom res step = .ok (some (.vObj m)) ∧
        getF m "_sources" = some (.vArr (step.dependsOn.map Value.vStr)) ∧
        getF m "_allResults" = some (.vArr (step.dependsOn.filterMap res)) ∧
        ∀ k, k ≠ "_sources" → k ≠ "_allResults" →
          getF m k = claimedFieldMerge (sourceVals res step.dependsOn k)) := by
  refine ⟨fun h => ?_, fun d o hd hres => ?_, fun hlen hres hcomp => ?_⟩
  · simp [gatherInputsFrom, h]
  · simp [gatherInputsFrom, hd, hres, jsTruthy]
  · rcases hds : step.dependsOn with _ | ⟨d₁, _ | ⟨d₂, rest⟩⟩
    · rw [hds] at hlen; simp at hlen
    · rw [hds] at hlen; simp at hlen
    · rw [hds] at hres hcomp
      obtain ⟨m0, hm0, hpt⟩ := mergeDeps_ok res (d₁ :: d₂ :: rest) hres
        (fun _ => []) [] [] (fun k => rfl)
        (fun k => by simpa using hcomp k)
      have hgather : gatherInputsFrom res step =
          .ok (some (.vObj (setF (setF m0 "_sources"
            (.vArr ((d₁ :: d₂ :: rest).map Value.vStr)))
            "_allResults" (.vArr ([] ++ (d₁ :: d₂ :: rest).filterMap res))))) := by
        unfold gatherInputsFrom
        rw [hds]
        simp only [hm0]
      refine ⟨_, hgather, ?_, ?_, ?_⟩
      · have h1 : getF (setF (setF m0 "_sources" (.vArr ((d₁ :: d₂ :: rest).map Value.vStr)))
            "_allResults" (.vArr ([] ++ (d₁ :: d₂ :: rest).filterMap res))) "_sources" =
            getF (setF m0 "_sources" (.vArr ((d₁ :: d₂ :: rest).map Value.vStr))) "_sources" :=
          mapGet_mapSet_ne _ "_allResults" "_sources" _ (by decide)
        rw [h1]
        exact mapGet_mapSet_self _ _ _
      · have := mapGet_mapSet_self (setF m0 "_sources"
          (.vArr ((d₁ :: d₂ :: rest).map Value.vStr))) "_allResults"
          (Value.vArr ([] ++ (d₁ :: d₂ :: rest).filterMap res))
        simpa using this
      · intro k hk1 hk2
        have h1 : getF (setF (setF m0 "_sources" (.vArr ((d₁ :: d₂ :: rest).map Value.vStr)))
            "_allResults" (.vArr ([] ++ (d₁ :: d₂ :: rest).filterMap res))) k =
            getF (setF m0 "_sources" (.vArr ((d₁ :: d₂ :: rest).map Value.vStr))) k :=
          mapGet_mapSet_ne _ "_allResults" k _ (fun hh => hk2 hh.symm)
        have h2 : getF (setF m0 "_sources" (.vArr ((d₁ :: d₂ :: rest).map Value.vStr))) k =
            getF m0 k :=
          mapGet_mapSet_ne _ "_sources" k _ (fun hh => hk1 hh.symm)
        rw [h1, h2, hpt k]
        simp

/-- **C3 counterexample**: with a truthy scalar under `k` in the first source
and an array under `k` in the second, the merge loop calls `.push` on a
non-array and throws, so no merged record is produced at all — the claim's
unconditional array-concatenation reading fails. -/
theorem gatherInputs_mixed_kind_counterexample :
    gatherInputsFrom resMixed stepAB =
      .error "TypeError: mergedInput[key].push is not a function" := by
  rfl

/-- **C3 witness**: the amended merge theorem applied to two record results
both carrying arrays under `products`. -/
theorem gatherInputs_merge_spec_witness :
    ∃ m, gatherInputsFrom resProducts stepAB = .ok (some (.vObj m)) ∧
      getF m "_sources" = some (.vArr [.vStr "A", .vStr "B"]) ∧
      getF m "_allResults" = some (.vArr [.vObj [("products", .vArr [.vNum 1, .vNum 2])],
        .vObj [("products", .vArr [.vNum 3])]]) ∧
      ∀ k, k ≠ "_sources" → k ≠ "_allResults" →
        getF m k = claimedFieldMerge (sourceVals resProducts stepAB.dependsOn k) := by
  have hres : ∀ d ∈ stepAB.dependsOn, ∃ o, resProducts d = some (.vObj o) ∧
      (o.map Prod.fst).Nodup := by
    intro d hd
    have : d = "A" ∨ d = "B" := by
      simpa [stepAB] using hd
    rcases this with rfl | rfl
    · exact ⟨[("products", .vArr [.vNum 1, .vNum 2])], rfl, by simp⟩
    · exact ⟨[("products", .vArr [.vNum 3])], rfl, by simp⟩
  have hc : ∀ k, kindCompatible (sourceVals resProducts stepAB.dependsOn k) := by
    intro k
    have hAB : stepAB.dependsOn = ["A", "B"] := rfl
    rw [hAB,
      sourceVals_cons_obj resProducts "A" ["B"] k [("products", .vArr [.vNum 1, .vNum 2])] rfl,
      sourceVals_cons_obj resProducts "B" [] k [("products", .vArr [.vNum 3])] rfl,
      sourceVals_nil]
    by_cases hk : k = "products"
    · subst hk
      refine Or.inl ?_
      intro v hv
      simp [mapGet_cons] at hv
      rcases hv with rfl | rfl <;> rfl
    · have h1 : mapGet [("products", Value.vArr [.vNum 1, .vNum 2])] k = none := by
        rw [mapGet_cons, if_neg (fun hh => hk hh.symm), mapGet_nil]
      have h2 : mapGet [("products", Value.vArr [.vNum 3])] k = none := by
        rw [mapGet_cons, if_neg (fun hh => hk hh.symm), mapGet_nil]
      rw [h1, h2]
      exact Or.inl (by intro v hv; cases hv)
  exact (gatherInputs_merge_spec resProducts stepAB).2.2 (by decide) hres hc

/-! ## Parallelism-analysis lemmas -/

open ParallelWorkflowExecutor

theorem chainId_injective : Function.Injective chainId := by
  intro i j h
  have hlen : (chainId i).length = (chainId j).length := congrArg String.length h
  simp only [chainId, String.length, List.length_replicate] at hlen
  omega

theorem foldl_setInsert_fresh (l : List String) :
    ∀ acc : List String, l.Nodup → (∀ x ∈ l, x ∉ acc) →
    l.foldl setInsert acc = acc ++ l := by
  induction l with
  | nil => intro acc _ _; simp
  | cons a rest ih =>
      intro acc hnd hfresh
      simp only [List.nodup_cons] at hnd
      have h1 : setInsert acc a = acc ++ [a] := by
        simp [setInsert, hfresh a (List.mem_cons_self _ _)]
      have h2 : ∀ x ∈ rest, x ∉ acc ++ [a] := by
        intro x hx
        simp only [List.mem_append, List.mem_singleton]
        push_neg
        refine ⟨hfresh x (List.mem_cons_of_mem _ hx), ?_⟩
        intro hxa; exact hnd.1 (hxa ▸ hx)
      rw [List.foldl_cons, h1, ih (acc ++ [a]) hnd.2 h2]
      simp

theorem dedupKeys_of_nodup (steps : List WorkflowStep)
    (h : (instanceIds steps).Nodup) : dedupKeys steps = instanceIds steps := by
  have h0 : dedupKeys steps = (instanceIds steps).foldl setInsert [] := by
    unfold dedupKeys instanceIds
    rw [List.foldl_map]
  rw [h0, foldl_setInsert_fresh _ [] h (by simp)]
  simp

theorem inDegInit_untouched (steps : List WorkflowStep) (x : String)
    (h : ∀ s ∈ steps, s.instanceId ≠ x) :
    ∀ f0 : String → Nat,
    (steps.foldl (fun f s => fun y =>
      if y = s.instanceId then s.dependsOn.length else f y) f0) x = f0 x := by
  induction steps with
  | nil => intro f0; rfl
  | cons s rest ih =>
      intro f0
      rw [List.foldl_cons, ih (fun t ht => h t (List.mem_cons_of_mem _ ht))]
      exact if_neg (fun hh => h s (List.mem_cons_self _ _) hh.symm)

theorem inDegInit_unique (steps : List WorkflowStep) (x : String)
    (s₀ : WorkflowStep) (h₀ : s₀ ∈ steps) (hx : s₀.instanceId = x)
    (hnd : (instanceIds steps).Nodup) :
    ∀ f0 : String → Nat,
    (steps.foldl (fun f s => fun y =>
      if y = s.instanceId then s.dependsOn.length else f y) f0) x =
      s₀.dependsOn.length := by
  induction steps with
  | nil => cases h₀
  | cons s rest ih =>
      intro f0
      simp only [instanceIds, List.map_cons, List.nodup_cons] at hnd
      rcases List.mem_cons.mp h₀ with rfl | hmem
      · have hrest : ∀ t ∈ rest, t.instanceId ≠ x := by
          intro t ht hcon
          exact hnd.1 (hx ▸ hcon ▸ List.mem_map.mpr ⟨t, ht, rfl⟩)
        rw [List.foldl_cons, inDegInit_untouched rest x hrest]
        rw [if_pos hx.symm]
      · rw [List.foldl_cons]
        exact ih hmem hnd.2 _

theorem inDegInit_eq (steps : List WorkflowStep) :
    inDegInit steps = steps.foldl (fun f s => fun y =>
      if y = s.instanceId then s.dependsOn.length else f y) (fun _ => 0) := rfl

theorem decFold_apply (steps : List WorkflowStep) (stepId : String)
    (rem' : List String) :
    ∀ (f : String → Nat) (x : String),
    (steps.foldl (fun f s =>
      if stepId ∈ s.dependsOn ∧ s.instanceId ∈ rem' then
        fun y => if y = s.instanceId then f y - 1 else f y
      else f) f) x
    = f x - steps.countP (fun s =>
        decide (stepId ∈ s.dependsOn ∧ s.instanceId ∈ rem' ∧ s.instanceId = x)) := by
  induction steps with
  | nil => intro f x; simp
  | cons s rest ih =>
      intro f x
      rw [List.foldl_cons, ih, List.countP_cons]
      by_cases h1 : stepId ∈ s.dependsOn ∧ s.instanceId ∈ rem'
      · by_cases h2 : s.instanceId = x
        · have hval : (if stepId ∈ s.dependsOn ∧ s.instanceId ∈ rem' then
              fun y => if y = s.instanceId then f y - 1 else f y
            else f) x = f x - 1 := by
            rw [if_pos h1]
            exact if_pos h2.symm
          have hpred : decide (stepId ∈ s.dependsOn ∧ s.instanceId ∈ rem' ∧
              s.instanceId = x) = true := decide_eq_true ⟨h1.1, h1.2, h2⟩
          rw [hval, hpred, if_pos rfl]
          omega
        · have hval : (if stepId ∈ s.dependsOn ∧ s.instanceId ∈ rem' then
              fun y => if y = s.instanceId then f y - 1 else f y
            else f) x = f x := by
            rw [if_pos h1]
            exact if_neg (fun hh => h2 hh.symm)
          have hpred : decide (stepId ∈ s.dependsOn ∧ s.instanceId ∈ rem' ∧
              s.instanceId = x) = false :=
            decide_eq_false (fun hcon => h2 hcon.2.2)
          rw [hval, hpred]
          simp
      · have hval : (if stepId ∈ s.dependsOn ∧ s.instanceId ∈ rem' then
            fun y => if y = s.instanceId then f y - 1 else f y
          else f) x = f x := by
          rw [if_neg h1]
        have hpred : decide (stepId ∈ s.dependsOn ∧ s.instanceId ∈ rem' ∧
            s.instanceId = x) = false :=
          decide_eq_false (fun hcon => h1 ⟨hcon.1, hcon.2.1⟩)
        rw [hval, hpred]
        simp

theorem removeAndDecrement_fst (steps : List WorkflowStep)
    (rd : List String × (String → Nat)) (stepId : String) :
    (removeAndDecrement steps rd stepId).1 = rd.1.erase stepId := rfl

theorem removeAndDecrement_snd (steps : List WorkflowStep)
    (rd : List String × (String → Nat)) (stepId x : String) :
    (removeAndDecrement steps rd stepId).2 x =
      rd.2 x - steps.countP (fun s =>
        decide (stepId ∈ s.dependsOn ∧ s.instanceId ∈ rd.1.erase stepId ∧
          s.instanceId = x)) :=
  decFold_apply steps stepId (rd.1.erase stepId) rd.2 x

theorem foldl_max_spec (n : Nat) (ns : List Nat) :
    ns.foldl max n ∈ n :: ns ∧ ∀ x ∈ n :: ns, x ≤ ns.foldl max n := by
  induction ns generalizing n with
  | nil => simp
  | cons m ms ih =>
      obtain ⟨hmem, hle⟩ := ih (max n m)
      constructor
      · rw [List.foldl_cons]
        rcases List.mem_cons.mp hmem with h | h
        · rcases max_choice n m with hc | hc <;> rw [h, hc] <;> simp
        · simp [h]
      · intro x hx
        rw [List.foldl_cons]
        rcases List.mem_cons.mp hx with rfl | hx
        · exact le_trans (Nat.le_max_left _ m) (hle _ (List.mem_cons_self _ _))
        · rcases List.mem_cons.mp hx with rfl | hx
          · exact le_trans (Nat.le_max_right n _) (hle _ (List.mem_cons_self _ _))
          · exact hle x (List.mem_cons_of_mem _ hx)

theorem foldl_rAD_fst (steps : List WorkflowStep) (level : List String) :
    ∀ rd : List String × (String → Nat),
    (level.foldl (removeAndDecrement steps) rd).1 = level.foldl List.erase rd.1 := by
  induction level with
  | nil => intro rd; rfl
  | cons a rest ih =>
      intro rd
      rw [List.foldl_cons, List.foldl_cons, ih (removeAndDecrement steps rd a),
        removeAndDecrement_fst]

theorem foldl_erase_self : ∀ l : List String, l.foldl List.erase l = [] := by
  intro l
  induction l with
  | nil => rfl
  | cons a rest ih =>
      rw [List.foldl_cons, List.erase_cons_head]
      exact ih

theorem mem_chainId_map (j : Nat) (l : List Nat) :
    chainId j ∈ l.map chainId ↔ j ∈ l := by
  constructor
  · intro h
    obtain ⟨i, hi, he⟩ := List.mem_map.mp h
    rwa [chainId_injective he] at hi
  · exact fun h => List.mem_map.mpr ⟨j, h, rfl⟩

theorem chainSteps_ids (n : Nat) :
    instanceIds (chainSteps n) = (List.range n).map chainId := by
  simp [instanceIds, chainSteps, List.map_map, Function.comp]

theorem chainSteps_ids_nodup (n : Nat) : (instanceIds (chainSteps n)).Nodup := by
  rw [chainSteps_ids]
  exact (List.nodup_range n).map chainId_injective

theorem indepSteps_ids (n : Nat) :
    instanceIds (indepSteps n) = (List.range n).map chainId := by
  simp [instanceIds, indepSteps, List.map_map, Function.comp]

theorem indepSteps_ids_nodup (n : Nat) : (instanceIds (indepSteps n)).Nodup := by
  rw [indepSteps_ids]
  exact (List.nodup_range n).map chainId_injective

theorem chainStep_mem (N j : Nat) (hj : j < N) :
    ({ instanceId := chainId j, moduleId := "m",
       dependsOn := if j = 0 then [] else [chainId (j - 1)] } : WorkflowStep) ∈
      chainSteps N := by
  unfold chainSteps
  exact List.mem_map.mpr ⟨j, List.mem_range.mpr hj, rfl⟩

theorem inDegInit_chain (N j : Nat) (hj : j < N) :
    inDegInit (chainSteps N) (chainId j) = if j = 0 then 0 else 1 := by
  rw [inDegInit_eq]
  rw [inDegInit_unique (chainSteps N) (chainId j) _ (chainStep_mem N j hj) rfl
    (chainSteps_ids_nodup N)]
  by_cases h0 : j = 0 <;> simp [h0]

theorem inDegInit_zero_of_no_deps (steps : List WorkflowStep)
    (h : ∀ s ∈ steps, s.dependsOn = []) :
    ∀ (f0 : String → Nat) (x : String), (∀ y, f0 y = 0) →
    (steps.foldl (fun f s => fun y =>
      if y = s.instanceId then s.dependsOn.length else f y) f0) x = 0 := by
  induction steps with
  | nil => intro f0 x h0; exact h0 x
  | cons s rest ih =>
      intro f0 x h0
      rw [List.foldl_cons]
      refine ih (fun t ht => h t (List.mem_cons_of_mem _ ht)) _ x ?_
      intro y
      by_cases hy : y = s.instanceId
      · simp [hy, h s (List.mem_cons_self _ _)]
      · simp [hy, h0 y]

/-- One full run of the level loop on the suffix of a chain: indices
`k, k+1, …, k+n-1` with in-degree `0` at `k` and `1` elsewhere produce one
singleton level per index. -/
theorem chain_levelLoop (N : Nat) (n : Nat) :
    ∀ (k fuel : Nat) (inDeg : String → Nat), k + n = N → n < fuel →
    (∀ j, k ≤ j → j < N → inDeg (chainId j) = if j = k then 0 else 1) →
    levelLoop (chainSteps N) fuel ((List.range' k n).map chainId) inDeg =
      (List.range' k n).map (fun i => [chainId i]) := by
  induction n with
  | zero =>
      intro k fuel inDeg hkn hfuel hdeg
      cases fuel with
      | zero => omega
      | succ f => simp [levelLoop]
  | succ m ih =>
      intro k fuel inDeg hkn hfuel hdeg
      cases fuel with
      | zero => omega
      | succ f =>
          have hkN : k < N := by omega
          have hrange : List.range' k (m + 1) = k :: List.range' (k + 1) m :=
            List.range'_succ k m 1
          rw [hrange, List.map_cons, List.map_cons]
          have hdegk : inDeg (chainId k) = 0 := by
            rw [hdeg k le_rfl hkN]
            simp
          have htail : ((List.range' (k + 1) m).map chainId).filter
              (fun id => decide (inDeg id = 0)) = [] := by
            rw [List.filter_eq_nil_iff]
            intro a ha
            obtain ⟨j, hj, rfl⟩ := List.mem_map.mp ha
            rw [List.mem_range'_1] at hj
            have : inDeg (chainId j) = 1 := by
              rw [hdeg j (by omega) (by omega)]
              rw [if_neg (by omega)]
            simp [this]
          have hlevel : (chainId k :: (List.range' (k + 1) m).map chainId).filter
              (fun id => decide (inDeg id = 0)) = [chainId k] := by
            rw [List.filter_cons_of_pos (by simp [hdegk]), htail]
          rw [levelLoop]
          rw [if_neg (by simp)]
          rw [hlevel]
          rw [if_neg (by simp)]
          have hrem' : (chainId k :: (List.range' (k + 1) m).map chainId).erase
              (chainId k) = (List.range' (k + 1) m).map chainId :=
            List.erase_cons_head _ _
          have hrd : ([chainId k].foldl (removeAndDecrement (chainSteps N))
              (chainId k :: (List.range' (k + 1) m).map chainId, inDeg)) =
              removeAndDecrement (chainSteps N)
                (chainId k :: (List.range' (k + 1) m).map chainId, inDeg)
                (chainId k) := by
            rw [List.foldl_cons, List.foldl_nil]
          rw [hrd]
          -- the decremented in-degrees on the remaining suffix
          have hdeg' : ∀ j, k + 1 ≤ j → j < N →
              (removeAndDecrement (chainSteps N)
                (chainId k :: (List.range' (k + 1) m).map chainId, inDeg)
                (chainId k)).2 (chainId j) = if j = k + 1 then 0 else 1 := by
            intro j hj1 hj2
            rw [removeAndDecrement_snd]
            have herase : (chainId k :: (List.range' (k + 1) m).map chainId).erase
                (chainId k) = (List.range' (k + 1) m).map chainId :=
              List.erase_cons_head _ _
            rw [herase]
            have hmap : (chainSteps N).countP (fun s =>
                decide (chainId k ∈ s.dependsOn ∧
                  s.instanceId ∈ (List.range' (k + 1) m).map chainId ∧
                  s.instanceId = chainId j)) =
                List.countP (fun i : Nat => decide (chainId k ∈
                  (if i = 0 then ([] : List String) else [chainId (i - 1)]) ∧
                  chainId i ∈ (List.range' (k + 1) m).map chainId ∧
                  chainId i = chainId j)) (List.range N) := by
              unfold chainSteps
              rw [List.countP_map]
              rfl
            have hcount : (chainSteps N).countP (fun s =>
                decide (chainId k ∈ s.dependsOn ∧
                  s.instanceId ∈ (List.range' (k + 1) m).map chainId ∧
                  s.instanceId = chainId j)) = if j = k + 1 then 1 else 0 := by
              rw [hmap]
              by_cases hjk : j = k + 1
              · subst hjk
                have hq : (fun i : Nat => decide (chainId k ∈
                    (if i = 0 then ([] : List String) else [chainId (i - 1)]) ∧
                    chainId i ∈ (List.range' (k + 1) m).map chainId ∧
                    chainId i = chainId (k + 1))) = (fun i : Nat => i == k + 1) := by
                  funext i
                  by_cases hi : i = k + 1
                  · subst hi
                    have h0 : ¬ (k + 1 = 0) := by omega
                    have h2 : chainId (k + 1) ∈ (List.range' (k + 1) m).map chainId := by
                      rw [mem_chainId_map, List.mem_range'_1]
                      omega
                    simp [h0, h2]
                  · have h3 : ¬ chainId i = chainId (k + 1) :=
                      fun hc => hi (chainId_injective hc)
                    simp [h3, hi]
                rw [if_pos rfl, hq]
                have hcnt : List.countP (fun i : Nat => i == k + 1) (List.range N) =
                    (List.range N).count (k + 1) := rfl
                rw [hcnt, List.count_eq_one_of_mem (List.nodup_range N)
                  (List.mem_range.mpr (by omega))]
              · rw [if_neg hjk]
                rw [List.countP_eq_zero]
                intro i _
                simp only [decide_eq_true_eq, not_and]
                intro hdep hmem hcon
                have hij : i = j := chainId_injective hcon
                subst hij
                rcases Nat.eq_zero_or_pos i with h0 | h0
                · rw [h0] at hdep
                  simp at hdep
                · rw [if_neg (by omega)] at hdep
                  simp only [List.mem_singleton] at hdep
                  have : k = i - 1 := chainId_injective hdep
                  omega
            rw [hcount]
            show inDeg (chainId j) - (if j = k + 1 then 1 else 0) =
              if j = k + 1 then 0 else 1
            rw [hdeg j (by omega) hj2]
            by_cases hjk : j = k + 1
            · simp [hjk, if_neg (show ¬ (k + 1 = k) by omega)]
            · rw [if_neg hjk, if_neg (by omega), if_neg hjk]
          have hfst : (removeAndDecrement (chainSteps N)
              (chainId k :: (List.range' (k + 1) m).map chainId, inDeg)
              (chainId k)).1 = (List.range' (k + 1) m).map chainId := by
            rw [removeAndDecrement_fst]
            exact List.erase_cons_head _ _
          have hgoal : levelLoop (chainSteps N) f
              ((removeAndDecrement (chainSteps N)
                (chainId k :: (List.range' (k + 1) m).map chainId, inDeg)
                (chainId k)).1)
              ((removeAndDecrement (chainSteps N)
                (chainId k :: (List.range' (k + 1) m).map chainId, inDeg)
                (chainId k)).2) =
              (List.range' (k + 1) m).map (fun i => [chainId i]) := by
            rw [hfst]
            exact ih (k + 1) f _ (by omega) (by omega) hdeg'
          exact congrArg (fun t => [chainId k] :: t) hgoal

theorem levelLoop_ne_nil (steps : List WorkflowStep) :
    ∀ fuel rem inDeg, ∀ l ∈ levelLoop steps fuel rem inDeg, l ≠ [] := by
  intro fuel
  induction fuel with
  | zero => intro rem inDeg l hl; cases hl
  | succ f ih =>
      intro rem inDeg l hl
      simp only [levelLoop] at hl
      split at hl
      · cases hl
      · split at hl
        · cases hl
        · next hne =>
            rcases List.mem_cons.mp hl with rfl | hl
            · intro hcon
              rw [hcon] at hne
              simp at hne
            · exact ih _ _ l hl

theorem levelLoop_nil_rem (steps : List WorkflowStep) :
    ∀ fuel inDeg, levelLoop steps fuel [] inDeg = [] := by
  intro fuel inDeg
  cases fuel <;> simp [levelLoop]

theorem analyzeParallelism_levels_eq (steps : List WorkflowStep) :
    (analyzeParallelism steps).levels =
      levelLoop steps ((dedupKeys steps).length + 1) (dedupKeys steps)
        (inDegInit steps) := rfl

theorem analyzeParallelism_general (steps : List WorkflowStep)
    (hne : (analyzeParallelism steps).levels ≠ []) :
    (∃ l ∈ (analyzeParallelism steps).levels,
        (analyzeParallelism steps).maxParallelism = some l.length ∧
        ∀ l' ∈ (analyzeParallelism steps).levels, l'.length ≤ l.length) ∧
    (∃ l0, (analyzeParallelism steps).levels.head? = some l0 ∧
        (analyzeParallelism steps).independentPaths = l0.length) := by
  cases hL : (analyzeParallelism steps).levels with
  | nil => exact absurd hL hne
  | cons l0 ls =>
      have hmax : (analyzeParallelism steps).maxParallelism =
          some ((ls.map List.length).foldl max l0.length) := by
        have h0 : (analyzeParallelism steps).maxParallelism =
            (match (analyzeParallelism steps).levels.map List.length with
             | [] => none
             | n :: ns => some (ns.foldl max n)) := rfl
        rw [h0, hL]
        simp
      obtain ⟨hmem, hbound⟩ := foldl_max_spec l0.length (ls.map List.length)
      constructor
      · have hmem' : (ls.map List.length).foldl max l0.length ∈
            (l0 :: ls).map List.length := by
          simpa using hmem
        obtain ⟨l, hl, hlen⟩ := List.mem_map.mp hmem'
        refine ⟨l, hL ▸ hl, by rw [hmax, hlen], ?_⟩
        intro l' hl'
        rw [hlen]
        apply hbound
        have : l'.length ∈ (l0 :: ls).map List.length :=
          List.mem_map.mpr ⟨l', hL ▸ hl', rfl⟩
        simpa using this
      · refine ⟨l0, rfl, ?_⟩
        have hip : (analyzeParallelism steps).independentPaths =
            (match (analyzeParallelism steps).levels.head? with
             | some l => if l.length = 0 then 1 else l.length
             | none => 1) := rfl
        rw [hip, hL]
        have hl0 : l0 ≠ [] := by
          have : l0 ∈ (analyzeParallelism steps).levels := by
            rw [hL]; exact List.mem_cons_self _ _
          rw [analyzeParallelism_levels_eq] at this
          exact levelLoop_ne_nil steps _ _ _ l0 this
        have : ¬ (l0.length = 0) := fun hc => hl0 (List.length_eq_zero.mp hc)
        simp [this]

theorem indep_levels (n : Nat) (hn : 1 ≤ n) :
    (analyzeParallelism (indepSteps n)).levels = [(List.range n).map chainId] := by
  have h1 : dedupKeys (indepSteps n) = (List.range n).map chainId := by
    rw [dedupKeys_of_nodup _ (indepSteps_ids_nodup n), indepSteps_ids]
  have hdeg0 : ∀ x, inDegInit (indepSteps n) x = 0 := by
    intro x
    rw [inDegInit_eq]
    apply inDegInit_zero_of_no_deps
    · intro s hs
      obtain ⟨i, _, rfl⟩ := List.mem_map.mp hs
      rfl
    · intro y; rfl
  rw [analyzeParallelism_levels_eq, h1]
  have hlen : ((List.range n).map chainId).length = n := by simp
  rw [hlen]
  cases n with
  | zero => omega
  | succ m =>
      rw [levelLoop]
      have hne : ((List.range (m + 1)).map chainId).isEmpty = false := by
        rw [List.range_succ_eq_map]
        simp
      rw [if_neg (by simp [hne])]
      have hfilter : ((List.range (m + 1)).map chainId).filter
          (fun id => decide (inDegInit (indepSteps (m + 1)) id = 0)) =
          (List.range (m + 1)).map chainId := by
        rw [List.filter_eq_self]
        intro a _
        simp [hdeg0 a]
      rw [hfilter]
      rw [if_neg (by simp [hne])]
      have hrd1 : (((List.range (m + 1)).map chainId).foldl
          (removeAndDecrement (indepSteps (m + 1)))
          ((List.range (m + 1)).map chainId, inDegInit (indepSteps (m + 1)))).1 = [] := by
        rw [foldl_rAD_fst]
        exact foldl_erase_self _
      have hrest : levelLoop (indepSteps (m + 1)) (m + 1)
          ((((List.range (m + 1)).map chainId).foldl
            (removeAndDecrement (indepSteps (m + 1)))
            ((List.range (m + 1)).map chainId, inDegInit (indepSteps (m + 1)))).1)
          ((((List.range (m + 1)).map chainId).foldl
            (removeAndDecrement (indepSteps (m + 1)))
            ((List.range (m + 1)).map chainId, inDegInit (indepSteps (m + 1)))).2) = [] := by
        rw [hrd1]
        exact levelLoop_nil_rem _ _ _
      exact congrArg (fun t => ((List.range (m + 1)).map chainId) :: t) hrest

theorem chain_levels (n : Nat) (_hn : 1 ≤ n) :
    (analyzeParallelism (chainSteps n)).levels =
      (List.range n).map (fun i => [chainId i]) := by
  have h1 : dedupKeys (chainSteps n) = (List.range n).map chainId := by
    rw [dedupKeys_of_nodup _ (chainSteps_ids_nodup n), chainSteps_ids]
  rw [analyzeParallelism_levels_eq, h1]
  have hlen : ((List.range n).map chainId).length = n := by simp
  rw [hlen]
  have hr : List.range n = List.range' 0 n := List.range_eq_range' n
  rw [hr]
  exact chain_levelLoop n n 0 (n + 1) (inDegInit (chainSteps n)) (by omega) (by omega)
    (fun j hj0 hjn => inDegInit_chain n j hjn)

/-- **C5**: `analyzeParallelism` performs the layered topological sort and,
whenever at least one level was produced, reports `maxParallelism` as the size
of a largest level and `independentPaths` as the size of the first level; a
pure chain of `n ≥ 1` steps yields `n` singleton levels with
`maxParallelism = 1`, and `n ≥ 1` fully independent steps yield one level of
size `n` with `maxParallelism = n`. -/
theorem analyzeParallelism_spec :
    (∀ steps : List WorkflowStep, (analyzeParallelism steps).levels ≠ [] →
      (∃ l ∈ (analyzeParallelism steps).levels,
          (analyzeParallelism steps).maxParallelism = some l.length ∧
          ∀ l' ∈ (analyzeParallelism steps).levels, l'.length ≤ l.length) ∧
      (∃ l0, (analyzeParallelism steps).levels.head? = some l0 ∧
          (analyzeParallelism steps).independentPaths = l0.length)) ∧
    (∀ n : Nat, 1 ≤ n →
      (analyzeParallelism (chainSteps n)).levels =
        (List.range n).map (fun i => [chainId i]) ∧
      (analyzeParallelism (chainSteps n)).maxParallelism = some 1 ∧
      (analyzeParallelism (chainSteps n)).independentPaths = 1) ∧
    (∀ n : Nat, 1 ≤ n →
      (analyzeParallelism (indepSteps n)).levels = [(List.range n).map chainId] ∧
      (analyzeParallelism (indepSteps n)).maxParallelism = some n ∧
      (analyzeParallelism (indepSteps n)).independentPaths = n) := by
  refine ⟨analyzeParallelism_general, fun n hn => ?_, fun n hn => ?_⟩
  · have hlev := chain_levels n hn
    have hne : (analyzeParallelism (chainSteps n)).levels ≠ [] := by
      rw [hlev]
      intro hcon
      have hc := congrArg List.length hcon
      simp at hc
      omega
    obtain ⟨⟨l, hlm, hmax, _⟩, ⟨l0, hhead, hip⟩⟩ := analyzeParallelism_general _ hne
    refine ⟨hlev, ?_, ?_⟩
    · rw [hmax]
      rw [hlev] at hlm
      obtain ⟨i, _, rfl⟩ := List.mem_map.mp hlm
      rfl
    · rw [hip]
      rw [hlev] at hhead
      cases n with
      | zero => omega
      | succ m =>
          rw [List.range_succ_eq_map] at hhead
          simp only [List.map_cons, List.head?_cons, Option.some.injEq] at hhead
          rw [← hhead]
          rfl
  · have hlev := indep_levels n hn
    have hne : (analyzeParallelism (indepSteps n)).levels ≠ [] := by
      rw [hlev]; simp
    obtain ⟨⟨l, hlm, hmax, _⟩, ⟨l0, hhead, hip⟩⟩ := analyzeParallelism_general _ hne
    refine ⟨hlev, ?_, ?_⟩
    · rw [hmax]
      rw [hlev] at hlm
      simp only [List.mem_singleton] at hlm
      rw [hlm]
      simp
    · rw [hip]
      rw [hlev] at hhead
      simp only [List.head?_cons, Option.some.injEq] at hhead
      rw [← hhead]
      simp

/-- **C5 witness**: the parallelism analysis applied to the concrete chain and
independent families of size 2. -/
theorem analyzeParallelism_spec_witness :
    ((∃ l ∈ (analyzeParallelism (chainSteps 2)).levels,
        (analyzeParallelism (chainSteps 2)).maxParallelism = some l.length ∧
        ∀ l' ∈ (analyzeParallelism (chainSteps 2)).levels, l'.length ≤ l.length) ∧
      (∃ l0, (analyzeParallelism (chainSteps 2)).levels.head? = some l0 ∧
        (analyzeParallelism (chainSteps 2)).independentPaths = l0.length)) ∧
    (analyzeParallelism (chainSteps 2)).maxParallelism = some 1 ∧
    (analyzeParallelism (indepSteps 2)).maxParallelism = some 2 :=
  ⟨analyzeParallelism_spec.1 (chainSteps 2) (by decide),
   (analyzeParallelism_spec.2.1 2 (by decide)).2.1,
   (analyzeParallelism_spec.2.2 2 (by decide)).2.1⟩

/-! ## Workflow-inspector lemmas -/

open WorkflowInspector

theorem mem_foldl_setInsert {α : Type} (f : α → String) (l : List α) :
    ∀ (s : List String) (x : String),
    x ∈ l.foldl (fun s a => setInsert s (f a)) s ↔ x ∈ s ∨ ∃ a ∈ l, f a = x := by
  induction l with
  | nil => intro s x; simp
  | cons a rest ih =>
      intro s x
      rw [List.foldl_cons, ih]
      simp only [mem_setInsert, List.mem_cons]
      constructor
      · rintro ((h | h) | ⟨b, hb, hfb⟩)
        · exact Or.inl h
        · exact Or.inr ⟨a, Or.inl rfl, h.symm⟩
        · exact Or.inr ⟨b, Or.inr hb, hfb⟩
      · rintro (h | ⟨b, (rfl | hb), hfb⟩)
        · exact Or.inl (Or.inl h)
        · exact Or.inl (Or.inr hfb.symm)
        · exact Or.inr ⟨b, hb, hfb⟩

theorem mem_availAfter (moduleMap : List (String × Module))
    (pre : List WorkflowStep) :
    ∀ (avail : List String) (t : String),
    t ∈ availAfter moduleMap pre avail ↔
      t ∈ avail ∨ ∃ s ∈ pre, ∃ m, mapGet moduleMap s.moduleId = some m ∧
        ∃ o ∈ m.io.outputs, o.type = t := by
  induction pre with
  | nil => intro avail t; simp [availAfter]
  | cons st rest ih =>
      intro avail t
      cases hm : mapGet moduleMap st.moduleId with
      | none =>
          simp only [availAfter, hm]
          rw [ih]
          constructor
          · rintro (h | ⟨s, hs, hrest⟩)
            · exact Or.inl h
            · exact Or.inr ⟨s, List.mem_cons_of_mem _ hs, hrest⟩
          · rintro (h | ⟨s, hs, m, hsm, ho⟩)
            · exact Or.inl h
            · rcases List.mem_cons.mp hs with rfl | hs
              · rw [hm] at hsm; cases hsm
              · exact Or.inr ⟨s, hs, m, hsm, ho⟩
      | some m =>
          simp only [availAfter, hm]
          rw [ih, mem_foldl_setInsert (fun o : DataType => o.type) m.io.outputs]
          constructor
          · rintro ((h | ⟨o, ho, hot⟩) | ⟨s, hs, m', hsm, ho'⟩)
            · exact Or.inl h
            · exact Or.inr ⟨st, List.mem_cons_self _ _, m, hm, o, ho, hot⟩
            · exact Or.inr ⟨s, List.mem_cons_of_mem _ hs, m', hsm, ho'⟩
          · rintro (h | ⟨s, hs, m', hsm, o, ho, hot⟩)
            · exact Or.inl (Or.inl h)
            · rcases List.mem_cons.mp hs with rfl | hs
              · rw [hm] at hsm
                obtain rfl : m = m' := Option.some.inj hsm
                exact Or.inl (Or.inr ⟨o, ho, hot⟩)
              · exact Or.inr ⟨s, hs, m', hsm, o, ho, hot⟩

theorem someEarlierProvides_iff (steps : List WorkflowStep)
    (moduleMap : List (String × Module)) (i : Nat) (t : String) :
    someEarlierProvides steps moduleMap i t = true ↔
      ∃ s ∈ steps.take i, ∃ m, mapGet moduleMap s.moduleId = some m ∧
        ∃ o ∈ m.io.outputs, o.type = t := by
  unfold someEarlierProvides
  rw [List.any_eq_true]
  constructor
  · rintro ⟨s, hs, hp⟩
    cases hm : mapGet moduleMap s.moduleId with
    | none => rw [hm] at hp; cases hp
    | some m =>
        rw [hm, List.any_eq_true] at hp
        obtain ⟨o, ho, he⟩ := hp
        exact ⟨s, hs, m, hm, o, ho, by simpa using he⟩
  · rintro ⟨s, hs, m, hm, o, ho, rfl⟩
    refine ⟨s, hs, ?_⟩
    rw [hm, List.any_eq_true]
    exact ⟨o, ho, by simp⟩

theorem notAvail_iff (steps : List WorkflowStep)
    (moduleMap : List (String × Module)) (i : Nat) (t : String) :
    t ∉ availAfter moduleMap (steps.take i) [] ↔
      someEarlierProvides steps moduleMap i t = false := by
  rw [mem_availAfter]
  simp only [List.not_mem_nil, false_or]
  rw [← someEarlierProvides_iff steps moduleMap i t]
  cases someEarlierProvides steps moduleMap i t <;> simp

theorem validateDataFlowAux_append (moduleMap : List (String × Module))
    (l₁ : List WorkflowStep) :
    ∀ (l₂ : List WorkflowStep) (i : Nat) (avail : List String),
    (validateDataFlowAux moduleMap (l₁ ++ l₂) i avail).1 =
      (validateDataFlowAux moduleMap l₁ i avail).1 ++
        (validateDataFlowAux moduleMap l₂ (i + l₁.length)
          (availAfter moduleMap l₁ avail)).1 ∧
    (validateDataFlowAux moduleMap (l₁ ++ l₂) i avail).2 =
      (validateDataFlowAux moduleMap l₁ i avail).2 ++
        (validateDataFlowAux moduleMap l₂ (i + l₁.length)
          (availAfter moduleMap l₁ avail)).2 := by
  induction l₁ with
  | nil => intro l₂ i avail; simp [validateDataFlowAux, availAfter]
  | cons st rest ih =>
      intro l₂ i avail
      have hidx : i + (st :: rest).length = (i + 1) + rest.length := by
        simp only [List.length_cons]; omega
      cases hm : mapGet moduleMap st.moduleId with
      | none =>
          have havail : availAfter moduleMap (st :: rest) avail =
              availAfter moduleMap rest avail := by
            simp [availAfter, hm]
          simp only [List.cons_append, validateDataFlowAux, hm, havail, hidx,
            List.append_eq]
          obtain ⟨h1, h2⟩ := ih l₂ (i + 1) avail
          rw [h1, h2]
          simp
      | some m =>
          have havail : availAfter moduleMap (st :: rest) avail =
              availAfter moduleMap rest
                (m.io.outputs.foldl (fun s o => setInsert s o.type) avail) := by
            simp [availAfter, hm]
          simp only [List.cons_append, validateDataFlowAux, hm, havail, hidx,
            List.append_eq]
          obtain ⟨h1, h2⟩ := ih l₂ (i + 1)
            (m.io.outputs.foldl (fun s o => setInsert s o.type) avail)
          rw [h1, h2]
          simp [List.append_assoc]

theorem validateDataFlowAux_fst_mem (moduleMap : List (String × Module))
    (l : List WorkflowStep) :
    ∀ (i0 : Nat) (avail : List String) (e : String),
    e ∈ (validateDataFlowAux moduleMap l i0 avail).1 ↔
      ∃ j st, l[j]? = some st ∧
        ((mapGet moduleMap st.moduleId = none ∧
            e = moduleNotFoundMsg (i0 + j) st.moduleId) ∨
         ∃ m inp, mapGet moduleMap st.moduleId = some m ∧ inp ∈ m.io.inputs ∧
           inp.required = true ∧
           inp.type ∉ availAfter moduleMap (l.take j) avail ∧
           e = missingInputMsg (i0 + j) inp.type m.name) := by
  induction l with
  | nil => intro i0 avail e; simp [validateDataFlowAux]
  | cons st rest ih =>
      intro i0 avail e
      cases hm : mapGet moduleMap st.moduleId with
      | none =>
          have htake : ∀ j, availAfter moduleMap ((st :: rest).take (j + 1)) avail =
              availAfter moduleMap (rest.take j) avail := by
            intro j; simp [availAfter, hm]
          simp only [validateDataFlowAux, hm, List.mem_cons]
          constructor
          · rintro (rfl | he)
            · exact ⟨0, st, by simp, Or.inl ⟨hm, rfl⟩⟩
            · obtain ⟨j, st', hst', hc⟩ := (ih (i0 + 1) avail e).mp he
              refine ⟨j + 1, st', by simpa using hst', ?_⟩
              have hidx : (i0 + 1) + j = i0 + (j + 1) := by omega
              rcases hc with ⟨hn, he⟩ | ⟨m, inp, hs, hi, hr, hna, he⟩
              · exact Or.inl ⟨hn, by rw [he, hidx]⟩
              · exact Or.inr ⟨m, inp, hs, hi, hr,
                  by rw [htake j]; exact hna, by rw [he, hidx]⟩
          · rintro ⟨j, st', hst', hc⟩
            cases j with
            | zero =>
                rw [List.getElem?_cons_zero] at hst'
                obtain rfl : st = st' := Option.some.inj hst'
                rcases hc with ⟨_, he⟩ | ⟨m, inp, hs, _⟩
                · exact Or.inl he
                · rw [hm] at hs; cases hs
            | succ j =>
                rw [List.getElem?_cons_succ] at hst'
                have hidx : i0 + (j + 1) = (i0 + 1) + j := by omega
                refine Or.inr ((ih (i0 + 1) avail e).mpr ⟨j, st', hst', ?_⟩)
                rcases hc with ⟨hn, he⟩ | ⟨m, inp, hs, hi, hr, hna, he⟩
                · exact Or.inl ⟨hn, by rw [he, hidx]⟩
                · exact Or.inr ⟨m, inp, hs, hi, hr,
                    by rw [← htake j]; exact hna, by rw [he, hidx]⟩
      | some m0 =>
          have htake : ∀ j, availAfter moduleMap ((st :: rest).take (j + 1)) avail =
              availAfter moduleMap (rest.take j)
                (m0.io.outputs.foldl (fun s o => setInsert s o.type) avail) := by
            intro j; simp [availAfter, hm]
          simp only [validateDataFlowAux, hm, List.mem_append]
          constructor
          · rintro (he | he)
            · rw [List.mem_map] at he
              obtain ⟨inp, hinp, he⟩ := he
              rw [List.mem_filter, Bool.and_eq_true, decide_eq_true_eq] at hinp
              exact ⟨0, st, by simp,
                Or.inr ⟨m0, inp, hm, hinp.1, hinp.2.1, hinp.2.2, he.symm⟩⟩
            · obtain ⟨j, st', hst', hc⟩ :=
                (ih (i0 + 1) (m0.io.outputs.foldl (fun s o => setInsert s o.type) avail) e).mp he
              refine ⟨j + 1, st', by simpa using hst', ?_⟩
              have hidx : (i0 + 1) + j = i0 + (j + 1) := by omega
              rcases hc with ⟨hn, he⟩ | ⟨m, inp, hs, hi, hr, hna, he⟩
              · exact Or.inl ⟨hn, by rw [he, hidx]⟩
              · exact Or.inr ⟨m, inp, hs, hi, hr,
                  by rw [htake j]; exact hna, by rw [he, hidx]⟩
          · rintro ⟨j, st', hst', hc⟩
            cases j with
            | zero =>
                rw [List.getElem?_cons_zero] at hst'
                obtain rfl : st = st' := Option.some.inj hst'
                rcases hc with ⟨hn, _⟩ | ⟨m, inp, hs, hi, hr, hna, he⟩
                · rw [hm] at hn; cases hn
                · rw [hm] at hs
                  obtain rfl : m0 = m := Option.some.inj hs
                  refine Or.inl (List.mem_map.mpr ⟨inp, List.mem_filter.mpr ⟨hi, ?_⟩, he.symm⟩)
                  rw [Bool.and_eq_true, decide_eq_true_eq]
                  exact ⟨hr, hna⟩
            | succ j =>
                rw [List.getElem?_cons_succ] at hst'
                have hidx : i0 + (j + 1) = (i0 + 1) + j := by omega
                refine Or.inr ((ih (i0 + 1)
                  (m0.io.outputs.foldl (fun s o => setInsert s o.type) avail) e).mpr
                  ⟨j, st', hst', ?_⟩)
                rcases hc with ⟨hn, he⟩ | ⟨m, inp, hs, hi, hr, hna, he⟩
                · exact Or.inl ⟨hn, by rw [he, hidx]⟩
                · exact Or.inr ⟨m, inp, hs, hi, hr,
                    by rw [← htake j]; exact hna, by rw [he, hidx]⟩

theorem validateDataFlowAux_snd_mem (moduleMap : List (String × Module))
    (l : List WorkflowStep) :
    ∀ (i0 : Nat) (avail : List String) (e : String),
    e ∈ (validateDataFlowAux moduleMap l i0 avail).2 ↔
      ∃ j st m inp, l[j]? = some st ∧
        mapGet moduleMap st.moduleId = some m ∧ inp ∈ m.io.inputs ∧
        inp.required = false ∧
        inp.type ∉ availAfter moduleMap (l.take j) avail ∧
        e = optionalInputMsg (i0 + j) inp.type m.name := by
  induction l with
  | nil => intro i0 avail e; simp [validateDataFlowAux]
  | cons st rest ih =>
      intro i0 avail e
      cases hm : mapGet moduleMap st.moduleId with
      | none =>
          have htake : ∀ j, availAfter moduleMap ((st :: rest).take (j + 1)) avail =
              availAfter moduleMap (rest.take j) avail := by
            intro j; simp [availAfter, hm]
          simp only [validateDataFlowAux, hm]
          constructor
          · intro he
            obtain ⟨j, st', m, inp, hst', hs, hi, hr, hna, he⟩ :=
              (ih (i0 + 1) avail e).mp he
            have hidx : (i0 + 1) + j = i0 + (j + 1) := by omega
            exact ⟨j + 1, st', m, inp, by simpa using hst', hs, hi, hr,
              by rw [htake j]; exact hna, by rw [he, hidx]⟩
          · rintro ⟨j, st', m, inp, hst', hs, hi, hr, hna, he⟩
            cases j with
            | zero =>
                rw [List.getElem?_cons_zero] at hst'
                obtain rfl : st = st' := Option.some.inj hst'
                rw [hm] at hs; cases hs
            | succ j =>
                rw [List.getElem?_cons_succ] at hst'
                have hidx : i0 + (j + 1) = (i0 + 1) + j := by omega
                exact (ih (i0 + 1) avail e).mpr ⟨j, st', m, inp, hst', hs, hi, hr,
                  by rw [← htake j]; exact hna, by rw [he, hidx]⟩
      | some m0 =>
          have htake : ∀ j, availAfter moduleMap ((st :: rest).take (j + 1)) avail =
              availAfter moduleMap (rest.take j)
                (m0.io.outputs.foldl (fun s o => setInsert s o.type) avail) := by
            intro j; simp [availAfter, hm]
          simp only [validateDataFlowAux, hm, List.mem_append]
          constructor
          · rintro (he | he)
            · rw [List.mem_map] at he
              obtain ⟨inp, hinp, he⟩ := he
              rw [List.mem_filter, Bool.and_eq_true, Bool.not_eq_true',
                decide_eq_true_eq] at hinp
              exact ⟨0, st, m0, inp, by simp, hm, hinp.1, hinp.2.1, hinp.2.2, he.symm⟩
            · obtain ⟨j, st', m, inp, hst', hs, hi, hr, hna, he⟩ :=
                (ih (i0 + 1) (m0.io.outputs.foldl (fun s o => setInsert s o.type) avail) e).mp he
              have hidx : (i0 + 1) + j = i0 + (j + 1) := by omega
              exact ⟨j + 1, st', m, inp, by simpa using hst', hs, hi, hr,
                by rw [htake j]; exact hna, by rw [he, hidx]⟩
          · rintro ⟨j, st', m, inp, hst', hs, hi, hr, hna, he⟩
            cases j with
            | zero =>
                rw [List.getElem?_cons_zero] at hst'
                obtain rfl : st = st' := Option.some.inj hst'
                rw [hm] at hs
                obtain rfl : m0 = m := Option.some.inj hs
                refine Or.inl (List.mem_map.mpr ⟨inp, List.mem_filter.mpr ⟨hi, ?_⟩, he.symm⟩)
                rw [Bool.and_eq_true, Bool.not_eq_true', decide_eq_true_eq]
                exact ⟨hr, hna⟩
            | succ j =>
                rw [List.getElem?_cons_succ] at hst'
                have hidx : i0 + (j + 1) = (i0 + 1) + j := by omega
                refine Or.inr ((ih (i0 + 1)
                  (m0.io.outputs.foldl (fun s o => setInsert s o.type) avail) e).mpr
                  ⟨j, st', m, inp, hst', hs, hi, hr,
                    by rw [← htake j]; exact hna, by rw [he, hidx]⟩)

theorem checkMissingDependencies_mem_iff (steps : List WorkflowStep)
    (moduleMap : List (String × Module)) (e : String) :
    e ∈ checkMissingDependencies steps moduleMap ↔
      ∃ i st m inp, steps[i]? = some st ∧
        mapGet moduleMap st.moduleId = some m ∧ inp ∈ m.io.inputs ∧
        inp.required = true ∧
        someEarlierProvides steps moduleMap i inp.type = false ∧
        e = noPrevProvidesMsg i inp.type m.name := by
  unfold checkMissingDependencies
  rw [List.mem_flatten]
  constructor
  · rintro ⟨l, hl, hel⟩
    rw [List.mem_map] at hl
    obtain ⟨⟨i, st⟩, hp, rfl⟩ := hl
    rw [List.mk_mem_enum_iff_getElem?] at hp
    cases hm : mapGet moduleMap st.moduleId with
    | none => simp only [hm] at hel; cases hel
    | some m =>
        simp only [hm] at hel
        rw [List.mem_map] at hel
        obtain ⟨inp, hinp, he⟩ := hel
        rw [List.mem_filter, Bool.and_eq_true, Bool.not_eq_true'] at hinp
        exact ⟨i, st, m, inp, hp, hm, hinp.1, hinp.2.1, hinp.2.2, he.symm⟩
  · rintro ⟨i, st, m, inp, hst, hm, hinp, hreq, hsep, rfl⟩
    refine ⟨(m.io.inputs.filter (fun inp =>
        inp.required && !someEarlierProvides steps moduleMap i inp.type)).map
          (fun inp => noPrevProvidesMsg i inp.type m.name), ?_, ?_⟩
    · rw [List.mem_map]
      refine ⟨(i, st), List.mk_mem_enum_iff_getElem?.mpr hst, ?_⟩
      simp only [hm]
    · rw [List.mem_map]
      refine ⟨inp, List.mem_filter.mpr ⟨hinp, ?_⟩, rfl⟩
      rw [hreq, hsep]
      rfl

theorem missingInputMsg_includes_type (i : Nat) (t name : String) :
    jsIncludes (missingInputMsg i t name) t = true := by
  unfold jsIncludes
  apply decide_eq_true
  refine ⟨("Step " ++ toString (i + 1) ++ ": Missing required input \x27").data,
    ("\x27 for module \x27" ++ name ++ "\x27").data, ?_⟩
  unfold missingInputMsg
  simp [String.data_append, List.append_assoc]

theorem missingInputMsg_includes_pattern (i : Nat) (t name : String) :
    jsIncludes (missingInputMsg i t name) "Missing required input" = true := by
  unfold jsIncludes
  apply decide_eq_true
  have hlit : (": Missing required input \x27" : String).data =
      (": " : String).data ++ ("Missing required input" : String).data ++
        (" \x27" : String).data := by decide
  refine ⟨("Step " ++ toString (i + 1) ++ ": ").data,
    (" \x27" ++ t ++ "\x27 for module \x27" ++ name ++ "\x27").data, ?_⟩
  unfold missingInputMsg
  simp [String.data_append, List.append_assoc, hlit]

theorem dataFlow_missingDep_flags_iff (moduleMap : List (String × Module))
    (steps : List WorkflowStep) (i : Nat) (t : String) :
    dataFlowFlags moduleMap steps i t ↔ missingDepFlags moduleMap steps i t := by
  unfold dataFlowFlags missingDepFlags
  constructor
  · rintro ⟨st, m, inp, h1, h2, h3, h4, h5, h6⟩
    exact ⟨st, m, inp, h1, h2, h3, h4, h5, (notAvail_iff steps moduleMap i t).mp h6⟩
  · rintro ⟨st, m, inp, h1, h2, h3, h4, h5, h6⟩
    exact ⟨st, m, inp, h1, h2, h3, h4, h5, (notAvail_iff steps moduleMap i t).mpr h6⟩

/-- **C6.**  `validateWorkflow` walks the steps in order with an initially
empty available-dataType set: `isValid` holds exactly when the error list is
empty; the errors are the data-flow errors followed by the
missing-dependency errors, the warnings the data-flow warnings followed by
the human-intervention suggestions; availability before step `i` is exactly
the output types of earlier steps with found modules (outputs never reach
the step itself or earlier steps); a data-flow error is exactly a
module-not-found message or a missing-required-input message for an
unavailable required input (inputs of not-found modules are skipped); a
data-flow warning is exactly an optional-input message for an unavailable
optional input; and a step requiring `"products"` with no earlier step
outputting `"products"` always yields an error containing `"products"`. -/
theorem validateWorkflow_dataflow_spec (steps : List WorkflowStep)
    (modules : List Module) :
    ((validateWorkflow steps modules).isValid = true ↔
      (validateWorkflow steps modules).errors = []) ∧
    ((validateWorkflow steps modules).errors =
      (validateDataFlow steps (buildModuleMap modules)).1 ++
        checkMissingDependencies steps (buildModuleMap modules)) ∧
    ((validateWorkflow steps modules).warnings =
      (validateDataFlow steps (buildModuleMap modules)).2 ++
        suggestHumanInterventionModules steps (buildModuleMap modules)
          (validateWorkflow steps modules).errors) ∧
    (∀ i t, t ∈ availAfter (buildModuleMap modules) (steps.take i) [] ↔
      ∃ s ∈ steps.take i, ∃ m,
        mapGet (buildModuleMap modules) s.moduleId = some m ∧
        ∃ o ∈ m.io.outputs, o.type = t) ∧
    (∀ e, e ∈ (validateDataFlow steps (buildModuleMap modules)).1 ↔
      ∃ i st, steps[i]? = some st ∧
        ((mapGet (buildModuleMap modules) st.moduleId = none ∧
            e = moduleNotFoundMsg i st.moduleId) ∨
         ∃ m inp, mapGet (buildModuleMap modules) st.moduleId = some m ∧
           inp ∈ m.io.inputs ∧ inp.required = true ∧
           inp.type ∉ availAfter (buildModuleMap modules) (steps.take i) [] ∧
           e = missingInputMsg i inp.type m.name)) ∧
    (∀ e, e ∈ (validateDataFlow steps (buildModuleMap modules)).2 ↔
      ∃ i st m inp, steps[i]? = some st ∧
        mapGet (buildModuleMap modules) st.moduleId = some m ∧
        inp ∈ m.io.inputs ∧ inp.required = false ∧
        inp.type ∉ availAfter (buildModuleMap modules) (steps.take i) [] ∧
        e = optionalInputMsg i inp.type m.name) ∧
    (∀ i st m inp, steps[i]? = some st →
      mapGet (buildModuleMap modules) st.moduleId = some m →
      inp ∈ m.io.inputs → inp.required = true → inp.type = "products" →
      (∀ s ∈ steps.take i, ∀ m2,
        mapGet (buildModuleMap modules) s.moduleId = some m2 →
        ∀ o ∈ m2.io.outputs, o.type ≠ "products") →
      ∃ e ∈ (validateWorkflow steps modules).errors,
        jsIncludes e "products" = true) := by
  refine ⟨List.isEmpty_iff, rfl, rfl, ?_, ?_, ?_, ?_⟩
  · intro i t
    rw [mem_availAfter]
    simp only [List.not_mem_nil, false_or]
  · intro e
    simpa only [Nat.zero_add] using
      validateDataFlowAux_fst_mem (buildModuleMap modules) steps 0 [] e
  · intro e
    simpa only [Nat.zero_add] using
      validateDataFlowAux_snd_mem (buildModuleMap modules) steps 0 [] e
  · intro i st m inp hst hm hinp hreq htyp hnp
    have hna : inp.type ∉ availAfter (buildModuleMap modules) (steps.take i) [] := by
      rw [htyp]
      intro hmem
      rw [mem_availAfter] at hmem
      rcases hmem with h | ⟨s, hs, m2, hm2, o, ho, hot⟩
      · exact absurd h (List.not_mem_nil _)
      · exact hnp s hs m2 hm2 o ho hot
    refine ⟨missingInputMsg i inp.type m.name, ?_, ?_⟩
    · have hmem : missingInputMsg i inp.type m.name ∈
          (validateDataFlow steps (buildModuleMap modules)).1 :=
        (validateDataFlowAux_fst_mem (buildModuleMap modules) steps 0 [] _).mpr
          ⟨i, st, hst, Or.inr ⟨m, inp, hm, hinp, hreq, hna, by rw [Nat.zero_add]⟩⟩
      exact List.mem_append_left _ hmem
    · rw [htyp]
      exact missingInputMsg_includes_type i "products" m.name

theorem validateWorkflow_dataflow_spec_witness :
    ∃ e ∈ (validateWorkflow [stepOf "cons"] fixtureModules).errors,
      jsIncludes e "products" = true :=
  (validateWorkflow_dataflow_spec [stepOf "cons"] fixtureModules).2.2.2.2.2.2 0
    (stepOf "cons") modCons { type := "products", required := true }
    (by simp) (by decide) (by decide) rfl rfl (by simp)

/-- **C7 counterexample.**  In the very scenario the claim names — the same
dataType `"products"` produced by multiple steps — the two diagnostics agree
exactly: with both providers ahead of the consumer neither flags anything,
and with the consumer first both flag the same (step 0, `"products"`) pair;
no input is flagged by one check and not the other (the general agreement is
the C7 theorem). -/
theorem checkMissing_dataflow_no_disagreement :
    (validateDataFlow [stepOf "prov", stepOf "prov2", stepOf "cons"]
      (buildModuleMap fixtureModules)).1 = [] ∧
    checkMissingDependencies [stepOf "prov", stepOf "prov2", stepOf "cons"]
      (buildModuleMap fixtureModules) = [] ∧
    (validateDataFlow [stepOf "cons", stepOf "prov", stepOf "prov2"]
      (buildModuleMap fixtureModules)).1 =
      [missingInputMsg 0 "products" "Cons"] ∧
    checkMissingDependencies [stepOf "cons", stepOf "prov", stepOf "prov2"]
      (buildModuleMap fixtureModules) =
      [noPrevProvidesMsg 0 "products" "Cons"] :=
  ⟨rfl, rfl, rfl, rfl⟩

/-- **C7.**  The two diagnostics are consistent: `validateDataFlow`'s
forward-only availability rule and `checkMissingDependencies`'s
"no step before this one provides it" check flag exactly the same
(step index, required input dataType) pairs, and whenever a pair is flagged
both corresponding messages appear in `validateWorkflow`'s error list. -/
theorem checkMissing_dataflow_agree_spec (modules : List Module)
    (steps : List WorkflowStep) (i : Nat) (t : String) :
    (dataFlowFlags (buildModuleMap modules) steps i t ↔
      missingDepFlags (buildModuleMap modules) steps i t) ∧
    (dataFlowFlags (buildModuleMap modules) steps i t →
      ∃ st m, steps.get? i = some st ∧
        mapGet (buildModuleMap modules) st.moduleId = some m ∧
        missingInputMsg i t m.name ∈ (validateWorkflow steps modules).errors ∧
        noPrevProvidesMsg i t m.name ∈ (validateWorkflow steps modules).errors) := by
  refine ⟨dataFlow_missingDep_flags_iff _ _ _ _, ?_⟩
  rintro ⟨st, m, inp, h1, h2, h3, h4, h5, h6⟩
  have hst : steps[i]? = some st := by
    rw [← List.get?_eq_getElem?]; exact h1
  have hsep : someEarlierProvides steps (buildModuleMap modules) i t = false :=
    (notAvail_iff steps (buildModuleMap modules) i t).mp h6
  refine ⟨st, m, h1, h2, ?_, ?_⟩
  · have hmem : missingInputMsg i t m.name ∈
        (validateDataFlow steps (buildModuleMap modules)).1 :=
      (validateDataFlowAux_fst_mem (buildModuleMap modules) steps 0 [] _).mpr
        ⟨i, st, hst, Or.inr ⟨m, inp, h2, h3, h4, by rw [h5]; exact h6,
          by rw [Nat.zero_add, h5]⟩⟩
    exact List.mem_append_left _ hmem
  · have hmem : noPrevProvidesMsg i t m.name ∈
        checkMissingDependencies steps (buildModuleMap modules) :=
      (checkMissingDependencies_mem_iff steps (buildModuleMap modules) _).mpr
        ⟨i, st, m, inp, hst, h2, h3, h4, by rw [h5]; exact hsep, by rw [h5]⟩
    exact List.mem_append_right _ hmem

theorem checkMissing_dataflow_agree_spec_witness :
    dataFlowFlags (buildModuleMap fixtureModules) [stepOf "cons"] 0 "products" ∧
    missingDepFlags (buildModuleMap fixtureModules) [stepOf "cons"] 0 "products" ∧
    ∃ st m, [stepOf "cons"].get? 0 = some st ∧
      mapGet (buildModuleMap fixtureModules) st.moduleId = some m ∧
      missingInputMsg 0 "products" m.name ∈
        (validateWorkflow [stepOf "cons"] fixtureModules).errors ∧
      noPrevProvidesMsg 0 "products" m.name ∈
        (validateWorkflow [stepOf "cons"] fixtureModules).errors := by
  have hflag : dataFlowFlags (buildModuleMap fixtureModules) [stepOf "cons"] 0 "products" :=
    ⟨stepOf "cons", modCons, { type := "products", required := true },
      rfl, by decide, by decide, rfl, rfl, by simp [availAfter]⟩
  exact ⟨hflag,
    (checkMissing_dataflow_agree_spec fixtureModules [stepOf "cons"] 0 "products").1.mp hflag,
    (checkMissing_dataflow_agree_spec fixtureModules [stepOf "cons"] 0 "products").2 hflag⟩

theorem latestProviderBefore_zero (moduleMap : List (String × Module))
    (steps : List WorkflowStep) (t : String) :
    latestProviderBefore moduleMap steps 0 t = none := rfl

theorem latestProviderBefore_succ (moduleMap : List (String × Module))
    (steps : List WorkflowStep) (i : Nat) (st : WorkflowStep)
    (hst : steps[i]? = some st) (t : String) :
    latestProviderBefore moduleMap steps (i + 1) t =
      if providesT moduleMap st t then some i
      else latestProviderBefore moduleMap steps i t := by
  unfold latestProviderBefore
  have henum : steps.enum.take (i + 1) = steps.enum.take i ++ [(i, st)] := by
    rw [List.take_succ, List.getElem?_enum, hst]
    rfl
  rw [henum, List.filter_append, List.map_append]
  by_cases hq : providesT moduleMap st t
  · simp [List.filter_cons, hq, List.getLast?_concat]
  · simp [List.filter_cons, hq]

theorem foldl_availUpdate (outputs : List DataType) (i : Nat) :
    ∀ (avail : String → Option Nat) (t : String),
    (outputs.foldl
      (fun f o => fun t => if t = o.type then some i else f t) avail) t =
      if outputs.any (fun o => o.type == t) then some i else avail t := by
  induction outputs with
  | nil => intro avail t; simp
  | cons o os ih =>
      intro avail t
      rw [List.foldl_cons, ih]
      by_cases h : o.type = t
      · simp [List.any_cons, h]
      · have h' : ¬ t = o.type := fun hh => h hh.symm
        simp [List.any_cons, h, h']

theorem buildDependencyGraphAux_eq_claimed (moduleMap : List (String × Module))
    (steps : List WorkflowStep) (l : List WorkflowStep) :
    ∀ (i : Nat) (avail : String → Option Nat),
    steps.drop i = l →
    (∀ t, avail t = latestProviderBefore moduleMap steps i t) →
    buildDependencyGraphAux moduleMap l i avail =
      claimedDependencyGraphAux moduleMap steps l i := by
  induction l with
  | nil => intro i avail _ _; rfl
  | cons st rest ih =>
      intro i avail hdrop hinv
      have hst : steps[i]? = some st := by
        have h0 : (steps.drop i)[0]? = some st := by rw [hdrop]; simp
        rw [List.getElem?_drop] at h0
        simpa using h0
      have hdrop' : steps.drop (i + 1) = rest := by
        have h1 : (steps.drop i).drop 1 = steps.drop (i + 1) := by
          rw [List.drop_drop]
        rw [← h1, hdrop]
        rfl
      cases hm : mapGet moduleMap st.moduleId with
      | none =>
          have hinv' : ∀ t, avail t = latestProviderBefore moduleMap steps (i + 1) t := by
            intro t
            rw [latestProviderBefore_succ moduleMap steps i st hst t]
            have hpt : providesT moduleMap st t = false := by
              unfold providesT; rw [hm]
            rw [hpt]
            simpa using hinv t
          simp only [buildDependencyGraphAux, claimedDependencyGraphAux, hm]
          exact ih (i + 1) avail hdrop' hinv'
      | some m =>
          have hdeps :
              m.io.inputs.foldl (fun acc inp =>
                if inp.required && (avail inp.type).isNone then
                  acc ++ ["Missing required input: " ++ inp.type]
                else
                  match avail inp.type with
                  | some j => acc ++ [inp.type ++ " from step " ++ toString j]
                  | none => acc) [] =
              m.io.inputs.foldl (fun acc inp =>
                match latestProviderBefore moduleMap steps i inp.type with
                | none =>
                    if inp.required then
                      acc ++ ["Missing required input: " ++ inp.type]
                    else acc
                | some j => acc ++ [inp.type ++ " from step " ++ toString j]) [] := by
            refine List.foldl_ext _ _ [] ?_
            intro acc inp _
            rw [hinv inp.type]
            cases hl : latestProviderBefore moduleMap steps i inp.type with
            | none =>
                cases hr : inp.required <;> simp [hr]
            | some j => simp
          have hinv' : ∀ t,
              (m.io.outputs.foldl
                (fun f o => fun t => if t = o.type then some i else f t) avail) t =
              latestProviderBefore moduleMap steps (i + 1) t := by
            intro t
            rw [foldl_availUpdate, latestProviderBefore_succ moduleMap steps i st hst t]
            have hpt : providesT moduleMap st t =
                m.io.outputs.any (fun o => o.type == t) := by
              unfold providesT; rw [hm]
            rw [hpt]
            by_cases hq : m.io.outputs.any (fun o => o.type == t) = true
            · simp [hq]
            · rw [Bool.not_eq_true] at hq
              simp [hq, hinv t]
          simp only [buildDependencyGraphAux, claimedDependencyGraphAux, hm]
          rw [hdeps, ih (i + 1) _ hdrop' hinv']

/-- **C8 counterexample.**  With two providers of `"products"` (steps 0 and
1) ahead of a consumer, the consumer's entry reads `"products from step 1"`
— the latest prior provider, not the earliest as claimed; and a step whose
module is not found gets no entry at all, so the graph does not contain one
entry per step. -/
theorem buildDependencyGraph_counterexample :
    ((buildDependencyGraph [stepOf "prov", stepOf "prov2", stepOf "cons"]
        (buildModuleMap fixtureModules)).map (fun n => n.dependencies) =
      [[], [], ["products from step 1"]]) ∧
    (buildDependencyGraph [stepOf "bogus", stepOf "cons"]
        (buildModuleMap fixtureModules)).length = 1 :=
  ⟨by decide, by decide⟩

/-- **C8.**  `validateWorkflow`'s `dependencyGraph` equals the claimed graph:
one entry per step whose module is found (not-found steps are skipped), each
entry recording, for each of the module's inputs of type `T`, either
`"Missing required input: T"` (when `T` is required and has no prior
provider) or `"T from step j"` where `j` is the LATEST prior step whose
found module outputs `T` — the type→index map is overwritten as steps are
walked forward, so a later provider shadows an earlier one. -/
theorem buildDependencyGraph_spec (steps : List WorkflowStep)
    (modules : List Module) :
    (validateWorkflow steps modules).dependencyGraph =
      claimedDependencyGraph (buildModuleMap modules) steps := by
  show buildDependencyGraph steps (buildModuleMap modules) = _
  unfold buildDependencyGraph claimedDependencyGraph
  exact buildDependencyGraphAux_eq_claimed (buildModuleMap modules) steps steps 0
    (fun _ => none) rfl (fun t => rfl)

theorem insertDecisions_length (moduleMap : List (String × Module)) (now : Nat)
    (l : List WorkflowStep) :
    ∀ (prev : Option String) (i : Nat),
    l.length ≤ (insertDecisions moduleMap now prev i l).1.length := by
  induction l with
  | nil => intro prev i; simp [insertDecisions]
  | cons s rest ih =>
      intro prev i
      simp only [insertDecisions]
      split
      · simp only [List.length_cons]
        have := ih (some s.moduleId) (i + 2)
        omega
      · simp only [List.length_cons]
        have := ih (some s.moduleId) (i + 1)
        omega

theorem insertDecisions_manual_count (moduleMap : List (String × Module)) (now : Nat)
    (l : List WorkflowStep) :
    ∀ (prev : Option String) (i : Nat),
    (insertDecisions moduleMap now prev i l).1.countP
        (fun s => s.moduleId == "human-manual-input") =
      l.countP (fun s => s.moduleId == "human-manual-input") := by
  induction l with
  | nil => intro prev i; rfl
  | cons s rest ih =>
      intro prev i
      simp only [insertDecisions]
      split
      · have hdec : ((decisionStep now i (riskModuleName moduleMap s.moduleId)).moduleId ==
            "human-manual-input") = false := rfl
        simp [List.countP_cons, ih (some s.moduleId) (i + 2), hdec]
      · simp [List.countP_cons, ih (some s.moduleId) (i + 1)]

theorem insertDecisions_cons_notrisk (moduleMap : List (String × Module)) (now : Nat)
    (prev : Option String) (i : Nat) (s : WorkflowStep) (rest : List WorkflowStep)
    (h : riskModules.contains s.moduleId = false) :
    insertDecisions moduleMap now prev i (s :: rest) =
      (s :: (insertDecisions moduleMap now (some s.moduleId) (i + 1) rest).1,
       (insertDecisions moduleMap now (some s.moduleId) (i + 1) rest).2) := by
  simp only [insertDecisions]
  rw [h]
  simp

theorem autoFix_invalid_result (now : Nat) (steps : List WorkflowStep)
    (modules : List Module)
    (hv : (validateWorkflow steps modules).isValid = false)
    (hflen : 0 < ((validateWorkflow steps modules).errors.filter (fun e =>
      jsIncludes e "Missing required input" ||
        jsIncludes e "No previous step provides")).length) :
    ∃ extra : List WorkflowStep,
      (∀ s ∈ extra, s.moduleId = "human-decision") ∧
      (autoFixWorkflowWithHumanModules now steps modules).1 =
        manualInputStep now ::
          ((insertDecisions (buildModuleMap modules) now
            (some (manualInputStep now).moduleId) 1 steps).1 ++ extra) := by
  have hcons := insertDecisions_cons_notrisk (buildModuleMap modules) now none 0
    (manualInputStep now) steps rfl
  simp only [autoFixWorkflowWithHumanModules, hv, Bool.false_eq_true, if_false,
    gt_iff_lt, hflen, if_true, hcons]
  cases hq : (manualInputStep now ::
      (insertDecisions (buildModuleMap modules) now
        (some (manualInputStep now).moduleId) 1 steps).1).getLast? with
  | none => exact absurd (List.getLast?_eq_none_iff.mp hq) (List.cons_ne_nil _ _)
  | some last =>
      simp only [hq]
      cases hm2 : mapGet (buildModuleMap modules) last.moduleId with
      | none => exact ⟨[], by simp, by simp⟩
      | some m2 =>
          simp only [hm2]
          by_cases hcat : (m2.category == "analysis" &&
              !(last.moduleId == "human-decision")) = true
          · rw [if_pos hcat]
            exact ⟨[finalDecisionStep now], by intro s hs; simp at hs; rw [hs]; rfl,
              by simp⟩
          · rw [if_neg hcat]
            exact ⟨[], by simp, by simp⟩

/-- **C9.**  `autoFixWorkflowWithHumanModules` returns a valid workflow
unchanged with no change notes; on an invalid workflow with an error
matching `"Missing required input"` or `"No previous step provides"` it
prepends exactly one synthetic manual-input step at the front (the count of
`human-manual-input` steps rises by exactly one — a single global
remediation), so the fixed list is strictly longer; in particular a workflow
whose first step's found module has a required input (necessarily unmet at
index 0) comes back strictly longer with the synthetic manual-input step
first. -/
theorem autoFixWorkflow_spec (now : Nat) (steps : List WorkflowStep)
    (modules : List Module) :
    ((validateWorkflow steps modules).isValid = true →
      autoFixWorkflowWithHumanModules now steps modules = (steps, [])) ∧
    ((validateWorkflow steps modules).isValid = false →
      (∃ e ∈ (validateWorkflow steps modules).errors,
        (jsIncludes e "Missing required input" ||
          jsIncludes e "No previous step provides") = true) →
      ∃ tl, (autoFixWorkflowWithHumanModules now steps modules).1 =
          manualInputStep now :: tl ∧
        steps.length < (autoFixWorkflowWithHumanModules now steps modules).1.length ∧
        (autoFixWorkflowWithHumanModules now steps modules).1.countP
            (fun s => s.moduleId == "human-manual-input") =
          steps.countP (fun s => s.moduleId == "human-manual-input") + 1) ∧
    (∀ st m inp, steps[0]? = some st →
      mapGet (buildModuleMap modules) st.moduleId = some m →
      inp ∈ m.io.inputs → inp.required = true →
      (autoFixWorkflowWithHumanModules now steps modules).1.head? =
          some (manualInputStep now) ∧
      steps.length < (autoFixWorkflowWithHumanModules now steps modules).1.length) := by
  have hvalid : (validateWorkflow steps modules).isValid = true →
      autoFixWorkflowWithHumanModules now steps modules = (steps, []) := by
    intro hv
    simp [autoFixWorkflowWithHumanModules, hv]
  have hmain : (validateWorkflow steps modules).isValid = false →
      (∃ e ∈ (validateWorkflow steps modules).errors,
        (jsIncludes e "Missing required input" ||
          jsIncludes e "No previous step provides") = true) →
      ∃ tl, (autoFixWorkflowWithHumanModules now steps modules).1 =
          manualInputStep now :: tl ∧
        steps.length < (autoFixWorkflowWithHumanModules now steps modules).1.length ∧
        (autoFixWorkflowWithHumanModules now steps modules).1.countP
            (fun s => s.moduleId == "human-manual-input") =
          steps.countP (fun s => s.moduleId == "human-manual-input") + 1 := by
    rintro hv ⟨e, he, hmatch⟩
    have hfmem : e ∈ (validateWorkflow steps modules).errors.filter (fun e =>
        jsIncludes e "Missing required input" ||
          jsIncludes e "No previous step provides") :=
      List.mem_filter.mpr ⟨he, hmatch⟩
    have hflen := List.length_pos_of_mem hfmem
    obtain ⟨extra, hextra, hres⟩ := autoFix_invalid_result now steps modules hv hflen
    have hlen2 := insertDecisions_length (buildModuleMap modules) now steps
      (some (manualInputStep now).moduleId) 1
    have hcnt2 := insertDecisions_manual_count (buildModuleMap modules) now steps
      (some (manualInputStep now).moduleId) 1
    have hextra0 : extra.countP (fun s => s.moduleId == "human-manual-input") = 0 := by
      rw [List.countP_eq_zero]
      intro s hs
      rw [hextra s hs]
      simp
    refine ⟨_, hres, ?_, ?_⟩
    · rw [hres]
      simp only [List.length_cons, List.length_append]
      omega
    · rw [hres, List.countP_cons_of_pos _ _ (by rfl), List.countP_append, hcnt2, hextra0]
  refine ⟨hvalid, hmain, ?_⟩
  intro st m inp hst hm hinp hreq
  have hmem : missingInputMsg 0 inp.type m.name ∈
      (validateDataFlow steps (buildModuleMap modules)).1 :=
    (validateDataFlowAux_fst_mem (buildModuleMap modules) steps 0 [] _).mpr
      ⟨0, st, hst, Or.inr ⟨m, inp, hm, hinp, hreq, by simp [availAfter], rfl⟩⟩
  have hemem : missingInputMsg 0 inp.type m.name ∈
      (validateWorkflow steps modules).errors := List.mem_append_left _ hmem
  have hv : (validateWorkflow steps modules).isValid = false := by
    have hne : (validateWorkflow steps modules).errors ≠ [] :=
      List.ne_nil_of_mem hemem
    cases hb : (validateWorkflow steps modules).isValid with
    | false => rfl
    | true => exact absurd (List.isEmpty_iff.mp hb) hne
  obtain ⟨tl, htl, hlen, _⟩ := hmain hv
    ⟨missingInputMsg 0 inp.type m.name, hemem,
      by rw [missingInputMsg_includes_pattern]; rfl⟩
  exact ⟨by rw [htl]; rfl, hlen⟩

theorem autoFixWorkflow_spec_witness :
    (autoFixWorkflowWithHumanModules 7 [stepOf "cons"] fixtureModules).1.head? =
        some (manualInputStep 7) ∧
    ([stepOf "cons"] : List WorkflowStep).length <
      (autoFixWorkflowWithHumanModules 7 [stepOf "cons"] fixtureModules).1.length :=
  (autoFixWorkflow_spec 7 [stepOf "cons"] fixtureModules).2.2
    (stepOf "cons") modCons { type := "products", required := true }
    (by simp) (by decide) (by decide) rfl

/-! ## Executor lemmas -/

open ParallelWorkflowExecutor

theorem mapGet_isSome_of_mem_keys {α : Type} (m : List (String × α)) (k : String)
    (h : k ∈ m.map Prod.fst) : ∃ v, mapGet m k = some v := by
  induction m with
  | nil => cases h
  | cons p rest ih =>
      obtain ⟨k₀, v₀⟩ := p
      rw [mapGet_cons]
      by_cases h0 : k₀ = k
      · exact ⟨v₀, by simp [h0]⟩
      · simp only [List.map_cons, List.mem_cons] at h
        rcases h with h | h
        · exact absurd h.symm h0
        · simpa [h0] using ih h

theorem keys_of_mapGet_eq_some {α : Type} (m : List (String × α)) (k : String)
    (v : α) (h : mapGet m k = some v) : k ∈ m.map Prod.fst :=
  List.mem_map.mpr ⟨(k, v), mem_of_mapGet_eq_some m k v h, rfl⟩

theorem keys_mapSet_of_mem {α : Type} (m : List (String × α)) (k : String) (v : α)
    (h : k ∈ m.map Prod.fst) : (mapSet m k v).map Prod.fst = m.map Prod.fst := by
  rw [keys_mapSet]
  simp [h]

theorem mapSet_mapSet_self {α : Type} (m : List (String × α)) (k : String) (v w : α) :
    mapSet (mapSet m k v) k w = mapSet m k w := by
  induction m with
  | nil => simp [mapSet]
  | cons p rest ih =>
      obtain ⟨k₀, v₀⟩ := p
      by_cases h0 : k₀ = k
      · simp [mapSet, h0]
      · simp [mapSet, h0, ih]

theorem mem_mapSet_ne {α : Type} (m : List (String × α))
    (hnd : (m.map Prod.fst).Nodup) (k : String) (v : α) (p : String × α)
    (hp : p ∈ mapSet m k v) : p = (k, v) ∨ (p ∈ m ∧ p.1 ≠ k) := by
  induction m with
  | nil =>
      simp only [mapSet, List.mem_singleton] at hp
      exact Or.inl hp
  | cons q rest ih =>
      obtain ⟨k₀, v₀⟩ := q
      simp only [List.map_cons, List.nodup_cons] at hnd
      by_cases h0 : k₀ = k
      · subst h0
        simp [mapSet] at hp
        cases hp with
        | inl h => exact Or.inl h
        | inr h =>
            refine Or.inr ⟨List.mem_cons_of_mem _ h, ?_⟩
            intro hpk
            exact hnd.1 (hpk ▸ List.mem_map.mpr ⟨p, h, rfl⟩)
      · simp [mapSet, h0] at hp
        cases hp with
        | inl h => exact Or.inr ⟨List.mem_cons.mpr (Or.inl h), by rw [h]; exact h0⟩
        | inr h =>
            rcases ih hnd.2 h with h1 | h1
            · exact Or.inl h1
            · exact Or.inr ⟨List.mem_cons_of_mem _ h1.1, h1.2⟩

theorem setInsert_erase_of_not_mem (l : List String) (x : String) (h : x ∉ l) :
    (setInsert l x).erase x = l := by
  rw [setInsert, if_neg h]
  induction l with
  | nil => simp
  | cons a rest ih =>
      simp only [List.mem_cons] at h
      push_neg at h
      have hne : ¬ a = x := fun hh => h.1 hh.symm
      rw [List.cons_append, List.erase_cons]
      simp [hne, ih h.2]

theorem resOf_mark_running (g : ExecutionGraph) (id : String)
    (node : ExecutionNode) (hnode : mapGet g.nodes id = some node) (x : String) :
    resOf { g with nodes := mapSet g.nodes id { node with status := .running },
                   running := setInsert g.running id } x = resOf g x := by
  show (mapGet (mapSet g.nodes id { node with status := .running }) x).bind (·.result) =
    (mapGet g.nodes x).bind (·.result)
  by_cases hx : x = id
  · subst hx
    rw [mapGet_mapSet_self, hnode]
    rfl
  · rw [mapGet_mapSet_ne _ _ _ _ (fun hh => hx hh.symm)]

theorem stepAttempt_resOf_congr (env : Env) (g g' : ExecutionGraph)
    (h : ∀ x, resOf g x = resOf g' x) (step : WorkflowStep) :
    stepAttempt env g step = stepAttempt env g' step := by
  unfold stepAttempt gatherInputs
  rw [show resOf g = resOf g' from funext h]

theorem executeStep_none (env : Env) (g : ExecutionGraph) (id : String)
    (hnone : mapGet g.nodes id = none) : executeStep env g id = g := by
  unfold executeStep
  simp only [hnone]

theorem executeStep_eq (env : Env) (g : ExecutionGraph) (id : String)
    (node : ExecutionNode) (hnode : mapGet g.nodes id = some node) :
    executeStep env g id =
      match stepAttempt env g node.step with
      | .ok result =>
          { nodes := mapSet g.nodes id
              { node with status := .completed, result := some result }
            completed := setInsert g.completed id
            running := (setInsert g.running id).erase id }
      | .error e =>
          { nodes := mapSet g.nodes id
              { node with status := .failed, error := some e,
                          result := some (errorRecord e) }
            completed := setInsert g.completed id
            running := (setInsert g.running id).erase id } := by
  unfold executeStep
  simp only [hnode]
  rw [stepAttempt_resOf_congr env
    { g with nodes := mapSet g.nodes id { node with status := .running },
             running := setInsert g.running id } g
    (resOf_mark_running g id node hnode) node.step]
  cases hatt : stepAttempt env g node.step with
  | ok r => simp only [mapSet_mapSet_self]
  | error e => simp only [mapSet_mapSet_self]

theorem executeStep_completed (env : Env) (g : ExecutionGraph) (id : String)
    (node : ExecutionNode) (hnode : mapGet g.nodes id = some node) :
    (executeStep env g id).completed = setInsert g.completed id := by
  rw [executeStep_eq env g id node hnode]
  cases stepAttempt env g node.step <;> rfl

theorem executeStep_keys (env : Env) (g : ExecutionGraph) (id : String) :
    (executeStep env g id).nodes.map Prod.fst = g.nodes.map Prod.fst := by
  cases hnode : mapGet g.nodes id with
  | none => rw [executeStep_none env g id hnode]
  | some node =>
      rw [executeStep_eq env g id node hnode]
      have hk : id ∈ g.nodes.map Prod.fst := keys_of_mapGet_eq_some _ _ _ hnode
      cases stepAttempt env g node.step <;>
        exact keys_mapSet_of_mem _ _ _ hk

theorem executeStep_running (env : Env) (g : ExecutionGraph) (id : String)
    (node : ExecutionNode) (hnode : mapGet g.nodes id = some node)
    (hrun : id ∉ g.running) :
    (executeStep env g id).running = g.running := by
  rw [executeStep_eq env g id node hnode]
  cases stepAttempt env g node.step <;>
    exact setInsert_erase_of_not_mem _ _ hrun

theorem executeStep_node_other (env : Env) (g : ExecutionGraph) (id x : String)
    (hx : x ≠ id) :
    mapGet (executeStep env g id).nodes x = mapGet g.nodes x := by
  cases hnode : mapGet g.nodes id with
  | none => rw [executeStep_none env g id hnode]
  | some node =>
      rw [executeStep_eq env g id node hnode]
      cases stepAttempt env g node.step <;>
        exact mapGet_mapSet_ne _ _ _ _ (fun h => hx h.symm)

theorem executeStep_node_self (env : Env) (g : ExecutionGraph) (id : String)
    (node : ExecutionNode) (hnode : mapGet g.nodes id = some node) :
    ∃ node', mapGet (executeStep env g id).nodes id = some node' ∧
      node'.step = node.step ∧
      (node'.status = .completed ∨ node'.status = .failed) ∧
      ∃ v, node'.result = some v := by
  rw [executeStep_eq env g id node hnode]
  cases stepAttempt env g node.step with
  | ok r =>
      exact ⟨_, mapGet_mapSet_self _ _ _, rfl, Or.inl rfl, r, rfl⟩
  | error e =>
      exact ⟨_, mapGet_mapSet_self _ _ _, rfl, Or.inr rfl, errorRecord e, rfl⟩

theorem graphInv_update (steps : List WorkflowStep) (g : ExecutionGraph)
    (id : String) (node node' : ExecutionNode) (hinv : GraphInv steps g)
    (hnode : mapGet g.nodes id = some node)
    (hstep' : node'.step = node.step)
    (hstat : node'.status = .completed ∨ node'.status = .failed) :
    GraphInv steps { nodes := mapSet g.nodes id node',
                     completed := setInsert g.completed id,
                     running := (setInsert g.running id).erase id } := by
  have hk : id ∈ g.nodes.map Prod.fst := keys_of_mapGet_eq_some _ _ _ hnode
  have hkeys : (mapSet g.nodes id node').map Prod.fst = g.nodes.map Prod.fst :=
    keys_mapSet_of_mem _ _ _ hk
  have hmem := hinv.stepMatch (id, node) (mem_of_mapGet_eq_some _ _ _ hnode)
  constructor
  · show ((mapSet g.nodes id node').map Prod.fst).Nodup
    rw [hkeys]; exact hinv.keysNodup
  · intro p hp
    rcases mem_mapSet_ne g.nodes hinv.keysNodup id node' p hp with rfl | ⟨hpm, _⟩
    · exact ⟨by rw [hstep']; exact hmem.1, by rw [hstep']; exact hmem.2⟩
    · exact hinv.stepMatch p hpm
  · show (setInsert g.running id).erase id = []
    rw [hinv.runningNil]
    simp [setInsert]
  · intro x hx
    have hx' := (mem_setInsert _ _ _).mp hx
    show x ∈ (mapSet g.nodes id node').map Prod.fst
    rw [hkeys]
    rcases hx' with h | h
    · exact hinv.complSub x h
    · rw [h]; exact hk
  · exact nodup_setInsert _ _ hinv.complNodup
  · intro p hp
    rcases mem_mapSet_ne g.nodes hinv.keysNodup id node' p hp with rfl | ⟨hpm, hpne⟩
    · constructor
      · intro _; exact hstat
      · intro _; exact (mem_setInsert _ _ _).mpr (Or.inr rfl)
    · constructor
      · intro hc
        rcases (mem_setInsert _ _ _).mp hc with hc | hc
        · exact (hinv.statusIff p hpm).mp hc
        · exact absurd hc hpne
      · intro hs
        exact (mem_setInsert _ _ _).mpr (Or.inl ((hinv.statusIff p hpm).mpr hs))
  · intro p hp
    rcases mem_mapSet_ne g.nodes hinv.keysNodup id node' p hp with rfl | ⟨hpm, _⟩
    · rcases hstat with h | h <;> rw [h] <;> intro hcon <;> cases hcon
    · exact hinv.notRunning p hpm

theorem graphInv_executeStep (steps : List WorkflowStep) (env : Env)
    (g : ExecutionGraph) (id : String) (hinv : GraphInv steps g) :
    GraphInv steps (executeStep env g id) := by
  cases hnode : mapGet g.nodes id with
  | none => rw [executeStep_none env g id hnode]; exact hinv
  | some node =>
      rw [executeStep_eq env g id node hnode]
      cases stepAttempt env g node.step with
      | ok r =>
          exact graphInv_update steps g id node _ hinv hnode rfl (Or.inl rfl)
      | error e =>
          exact graphInv_update steps g id node _ hinv hnode rfl (Or.inr rfl)

theorem executeStep_completed_mono (env : Env) (g : ExecutionGraph) (id : String) :
    g.completed ⊆ (executeStep env g id).completed := by
  cases hnode : mapGet g.nodes id with
  | none =>
      rw [executeStep_none env g id hnode]
      exact fun x h => h
  | some node =>
      rw [executeStep_completed env g id node hnode]
      exact subset_setInsert _ _

theorem executeStep_completed_length (env : Env) (g : ExecutionGraph) (id : String) :
    g.completed.length ≤ (executeStep env g id).completed.length := by
  cases hnode : mapGet g.nodes id with
  | none => rw [executeStep_none env g id hnode]
  | some node =>
      rw [executeStep_completed env g id node hnode]
      exact length_setInsert_ge _ _

theorem executeStep_completed_sub (env : Env) (g : ExecutionGraph) (id : String)
    (x : String) (hx : x ∈ (executeStep env g id).completed) :
    x ∈ g.completed ∨ x = id := by
  cases hnode : mapGet g.nodes id with
  | none =>
      rw [executeStep_none env g id hnode] at hx
      exact Or.inl hx
  | some node =>
      rw [executeStep_completed env g id node hnode] at hx
      exact (mem_setInsert _ _ _).mp hx

theorem mem_getReadySteps (g : ExecutionGraph) (n : ExecutionNode) :
    n ∈ getReadySteps g ↔ ∃ id, (id, n) ∈ g.nodes ∧ n.status = .pending ∧
      ∀ d ∈ n.step.dependsOn, d ∈ g.completed := by
  unfold getReadySteps
  rw [List.mem_map]
  constructor
  · rintro ⟨p, hp, rfl⟩
    rw [List.mem_filter] at hp
    obtain ⟨hpm, hcond⟩ := hp
    rw [Bool.and_eq_true, decide_eq_true_eq, List.all_eq_true] at hcond
    exact ⟨p.1, hpm, hcond.1, fun d hd => by simpa using hcond.2 d hd⟩
  · rintro ⟨id, hmem, hpend, hdeps⟩
    refine ⟨(id, n), List.mem_filter.mpr ⟨hmem, ?_⟩, rfl⟩
    rw [Bool.and_eq_true, decide_eq_true_eq, List.all_eq_true]
    exact ⟨hpend, fun d hd => decide_eq_true (hdeps d hd)⟩

theorem getReadySteps_nil (g : ExecutionGraph) (h : getReadySteps g = [])
    (p : String × ExecutionNode) (hp : p ∈ g.nodes)
    (hpend : p.2.status = .pending) :
    ∃ d ∈ p.2.step.dependsOn, d ∉ g.completed := by
  unfold getReadySteps at h
  rw [List.map_eq_nil_iff, List.filter_eq_nil_iff] at h
  have hq := h p hp
  rw [Bool.and_eq_true, decide_eq_true_eq, List.all_eq_true] at hq
  push_neg at hq
  obtain ⟨d, hd, hdc⟩ := hq hpend
  exact ⟨d, hd, by simpa using hdc⟩

theorem ready_node_props (steps : List WorkflowStep) (g : ExecutionGraph)
    (hinv : GraphInv steps g) (n : ExecutionNode) (hn : n ∈ getReadySteps g) :
    n.step ∈ steps ∧ n.step.instanceId ∈ g.nodes.map Prod.fst ∧
      n.step.instanceId ∉ g.completed ∧
      ∀ d ∈ n.step.dependsOn, d ∈ g.completed := by
  obtain ⟨id, hmem, hpend, hdeps⟩ := (mem_getReadySteps g n).mp hn
  have hsm := hinv.stepMatch (id, n) hmem
  have hid : n.step.instanceId = id := hsm.1
  refine ⟨hsm.2, ?_, ?_, hdeps⟩
  · rw [hid]
    exact List.mem_map.mpr ⟨(id, n), hmem, rfl⟩
  · rw [hid]
    intro hc
    rcases (hinv.statusIff (id, n) hmem).mp hc with h | h <;>
      · rw [hpend] at h; cases h

theorem foldl_executeStep_inv (steps : List WorkflowStep) (env : Env)
    (l : List ExecutionNode) :
    ∀ g, GraphInv steps g →
      GraphInv steps
        (l.foldl (fun g' n => executeStep env g' n.step.instanceId) g) := by
  induction l with
  | nil => exact fun g h => h
  | cons n rest ih =>
      intro g hg
      rw [List.foldl_cons]
      exact ih _ (graphInv_executeStep steps env g _ hg)

theorem foldl_executeStep_keys (env : Env) (l : List ExecutionNode) :
    ∀ g, (l.foldl (fun g' n => executeStep env g' n.step.instanceId) g).nodes.map
        Prod.fst = g.nodes.map Prod.fst := by
  induction l with
  | nil => exact fun g => rfl
  | cons n rest ih =>
      intro g
      rw [List.foldl_cons, ih, executeStep_keys]

theorem foldl_executeStep_length (env : Env) (l : List ExecutionNode) :
    ∀ g, g.completed.length ≤
      (l.foldl (fun g' n => executeStep env g' n.step.instanceId) g).completed.length := by
  induction l with
  | nil => exact fun g => Nat.le_refl _
  | cons n rest ih =>
      intro g
      rw [List.foldl_cons]
      exact Nat.le_trans (executeStep_completed_length env g _) (ih _)

theorem foldl_executeStep_mono (env : Env) (l : List ExecutionNode) :
    ∀ g, g.completed ⊆
      (l.foldl (fun g' n => executeStep env g' n.step.instanceId) g).completed := by
  induction l with
  | nil => exact fun g x h => h
  | cons n rest ih =>
      intro g x hx
      rw [List.foldl_cons]
      exact ih _ (executeStep_completed_mono env g _ hx)

theorem foldl_executeStep_completed_sub (env : Env) (l : List ExecutionNode) :
    ∀ g x, x ∈ (l.foldl (fun g' n => executeStep env g' n.step.instanceId) g).completed →
      x ∈ g.completed ∨ ∃ n ∈ l, n.step.instanceId = x := by
  induction l with
  | nil => exact fun g x h => Or.inl h
  | cons n rest ih =>
      intro g x hx
      rw [List.foldl_cons] at hx
      rcases ih _ x hx with h | ⟨n', hn', hid⟩
      · rcases executeStep_completed_sub env g _ x h with h | h
        · exact Or.inl h
        · exact Or.inr ⟨n, List.mem_cons_self _ _, h.symm⟩
      · exact Or.inr ⟨n', List.mem_cons_of_mem _ hn', hid⟩

theorem batch_progress (env : Env) (n : ExecutionNode) (rest : List ExecutionNode)
    (g : ExecutionGraph)
    (hid : n.step.instanceId ∈ g.nodes.map Prod.fst)
    (hnc : n.step.instanceId ∉ g.completed) :
    g.completed.length <
      ((n :: rest).foldl (fun g' nd => executeStep env g' nd.step.instanceId)
        g).completed.length := by
  rw [List.foldl_cons]
  obtain ⟨node, hnode⟩ := mapGet_isSome_of_mem_keys _ _ hid
  have h1 : (executeStep env g n.step.instanceId).completed.length =
      g.completed.length + 1 := by
    rw [executeStep_completed env g _ node hnode,
      length_setInsert_of_not_mem _ _ hnc]
  have h2 := foldl_executeStep_length env rest (executeStep env g n.step.instanceId)
  omega

theorem dedupKeys_nodup_aux (l : List WorkflowStep) :
    ∀ acc : List String, acc.Nodup →
      (l.foldl (fun a s => setInsert a s.instanceId) acc).Nodup := by
  induction l with
  | nil => exact fun acc h => h
  | cons s rest ih =>
      intro acc hacc
      rw [List.foldl_cons]
      exact ih _ (nodup_setInsert _ _ hacc)

theorem dedupKeys_nodup (steps : List WorkflowStep) : (dedupKeys steps).Nodup :=
  dedupKeys_nodup_aux steps [] List.nodup_nil

theorem foldl_mapSet_keys (steps : List WorkflowStep) :
    ∀ (m : List (String × ExecutionNode)),
    (steps.foldl (fun m s =>
      mapSet m s.instanceId { step := s, status := .pending }) m).map Prod.fst =
      steps.foldl (fun l s => setInsert l s.instanceId) (m.map Prod.fst) := by
  induction steps with
  | nil => intro m; rfl
  | cons s rest ih =>
      intro m
      rw [List.foldl_cons, List.foldl_cons, ih]
      congr 1
      rw [keys_mapSet, setInsert]

theorem initGraph_keys (steps : List WorkflowStep) :
    (initGraph steps).nodes.map Prod.fst = dedupKeys steps :=
  foldl_mapSet_keys steps []

theorem initGraph_nodes_prop (steps : List WorkflowStep) :
    ∀ (l : List WorkflowStep) (m : List (String × ExecutionNode)),
    (∀ s ∈ l, s ∈ steps) →
    (∀ p ∈ m, p.2.status = NodeStatus.pending ∧
      p.2.step.instanceId = p.1 ∧ p.2.step ∈ steps) →
    ∀ p ∈ l.foldl (fun m s =>
        mapSet m s.instanceId { step := s, status := .pending }) m,
      p.2.status = NodeStatus.pending ∧ p.2.step.instanceId = p.1 ∧
        p.2.step ∈ steps := by
  intro l
  induction l with
  | nil => intro m _ hm; exact hm
  | cons s rest ih =>
      intro m hl hm
      rw [List.foldl_cons]
      refine ih _ (fun x hx => hl x (List.mem_cons_of_mem _ hx)) ?_
      intro p hp
      rcases mem_mapSet m s.instanceId _ p hp with h | h
      · exact hm p h
      · rw [h]; exact ⟨rfl, rfl, hl s (List.mem_cons_self _ _)⟩

theorem graphInv_initGraph (steps : List WorkflowStep) :
    GraphInv steps (initGraph steps) := by
  have hprop := initGraph_nodes_prop steps steps [] (fun s hs => hs)
    (fun p hp => absurd hp (List.not_mem_nil p))
  constructor
  · rw [initGraph_keys]; exact dedupKeys_nodup steps
  · intro p hp
    exact ⟨(hprop p hp).2.1, (hprop p hp).2.2⟩
  · rfl
  · intro x hx
    exact absurd hx (List.not_mem_nil x)
  · exact List.nodup_nil
  · intro p hp
    constructor
    · intro hc; exact absurd hc (List.not_mem_nil _)
    · intro hs
      rcases hs with h | h <;>
        · rw [(hprop p hp).1] at h; cases h
  · intro p hp
    rw [(hprop p hp).1]
    intro h; cases h

theorem transGen_iterate {α : Type} (f : α → α) (R : α → α → Prop) (P : α → Prop)
    (hf : ∀ x, P x → R x (f x) ∧ P (f x)) :
    ∀ (k : Nat) (x : α), P x →
      Relation.TransGen R x (f^[k + 1] x) ∧ P (f^[k + 1] x) := by
  intro k
  induction k with
  | zero =>
      intro x hx
      rw [Function.iterate_one]
      exact ⟨Relation.TransGen.single (hf x hx).1, (hf x hx).2⟩
  | succ k ih =>
      intro x hx
      obtain ⟨ht, hp⟩ := ih x hx
      rw [Function.iterate_succ_apply']
      exact ⟨Relation.TransGen.tail ht (hf _ hp).1, (hf _ hp).2⟩

theorem cycle_of_iterates {α : Type} (f : α → α) (R : α → α → Prop) (P : α → Prop)
    (hf : ∀ x, P x → R x (f x) ∧ P (f x)) (x₀ : α) (hx₀ : P x₀)
    (i j : Nat) (hij : i < j) (heq : f^[i] x₀ = f^[j] x₀) :
    ∃ a, Relation.TransGen R a a := by
  have hPiter : ∀ k, P (f^[k] x₀) := by
    intro k
    induction k with
    | zero => exact hx₀
    | succ k ih =>
        rw [Function.iterate_succ_apply']
        exact (hf _ ih).2
  refine ⟨f^[i] x₀, ?_⟩
  have hk : (j - i - 1) + 1 + i = j := by omega
  have hsplit : f^[j] x₀ = f^[(j - i - 1) + 1] (f^[i] x₀) := by
    rw [← Function.iterate_add_apply, hk]
  have ht := (transGen_iterate f R P hf (j - i - 1) (f^[i] x₀) (hPiter i)).1
  rw [← hsplit, ← heq] at ht
  exact ht

theorem exists_cycle_of_productive (K : List String) (R : String → String → Prop)
    (P : String → Prop)
    (hsub : ∀ x, P x → x ∈ K)
    (hprod : ∀ x, P x → ∃ y, P y ∧ R x y)
    (x₀ : String) (hx₀ : P x₀) :
    ∃ a, Relation.TransGen R a a := by
  classical
  obtain ⟨f, hf⟩ : ∃ f : String → String, ∀ x, P x → R x (f x) ∧ P (f x) := by
    refine ⟨fun x => if h : ∃ y, P y ∧ R x y then h.choose else x, ?_⟩
    intro x hx
    have h : ∃ y, P y ∧ R x y := hprod x hx
    show R x (if h : ∃ y, P y ∧ R x y then h.choose else x) ∧
      P (if h : ∃ y, P y ∧ R x y then h.choose else x)
    rw [dif_pos h]
    exact ⟨h.choose_spec.2, h.choose_spec.1⟩
  have hPiter : ∀ k, P (f^[k] x₀) := by
    intro k
    induction k with
    | zero => exact hx₀
    | succ k ih =>
        rw [Function.iterate_succ_apply']
        exact (hf _ ih).2
  have hmaps : ∀ n ∈ Finset.range (K.length + 1), f^[n] x₀ ∈ K.toFinset := by
    intro n _
    exact List.mem_toFinset.mpr (hsub _ (hPiter n))
  have hcard : K.toFinset.card < (Finset.range (K.length + 1)).card := by
    rw [Finset.card_range]
    exact Nat.lt_succ_of_le (List.toFinset_card_le K)
  obtain ⟨i, hi, j, hj, hne, heq⟩ :=
    Finset.exists_ne_map_eq_of_card_lt_of_maps_to hcard hmaps
  rcases Nat.lt_or_ge i j with hij | hij
  · exact cycle_of_iterates f R P hf x₀ hx₀ i j hij heq
  · have hij' : j < i := Nat.lt_of_le_of_ne hij (fun h => hne h.symm)
    exact cycle_of_iterates f R P hf x₀ hx₀ j i hij' heq.symm

theorem ready_nonempty_of_acyclic (steps : List WorkflowStep) (g : ExecutionGraph)
    (hinv : GraphInv steps g)
    (hkeys : g.nodes.map Prod.fst = instanceIds steps)
    (hnodup : (instanceIds steps).Nodup)
    (hclosed : depsClosed steps)
    (hnocycle : ¬ hasDepCycle steps)
    (hlt : g.completed.length < (instanceIds steps).length) :
    getReadySteps g ≠ [] := by
  intro hready
  apply hnocycle
  have hex : ∃ x, x ∈ instanceIds steps ∧ x ∉ g.completed := by
    by_contra hno
    push_neg at hno
    have hsubp : List.Subperm (instanceIds steps) g.completed :=
      List.subperm_of_subset hnodup hno
    exact absurd hsubp.length_le (by omega)
  obtain ⟨x₀, hx₀⟩ := hex
  have hprod : ∀ x, (x ∈ instanceIds steps ∧ x ∉ g.completed) →
      ∃ y, (y ∈ instanceIds steps ∧ y ∉ g.completed) ∧
        dependsOnRel steps x y := by
    rintro x ⟨hxk, hxc⟩
    have hxkeys : x ∈ g.nodes.map Prod.fst := by rw [hkeys]; exact hxk
    obtain ⟨node, hnode⟩ := mapGet_isSome_of_mem_keys _ _ hxkeys
    have hpmem := mem_of_mapGet_eq_some _ _ _ hnode
    have hsm := hinv.stepMatch (x, node) hpmem
    have hpend : node.status = .pending := by
      have hiff := hinv.statusIff (x, node) hpmem
      have hnr := hinv.notRunning (x, node) hpmem
      cases hst : node.status with
      | pending => rfl
      | running => exact absurd hst hnr
      | completed => exact absurd (hiff.mpr (Or.inl hst)) hxc
      | failed => exact absurd (hiff.mpr (Or.inr hst)) hxc
    obtain ⟨d, hd, hdc⟩ := getReadySteps_nil g hready (x, node) hpmem hpend
    refine ⟨d, ⟨?_, hdc⟩, ?_⟩
    · exact hclosed node.step hsm.2 d hd
    · exact ⟨node.step, hsm.2, hsm.1, hd⟩
  exact exists_cycle_of_productive (instanceIds steps) (dependsOnRel steps) _
    (fun x hx => hx.1) hprod x₀ hx₀

theorem mem_dedupKeys (steps : List WorkflowStep) (x : String) :
    x ∈ dedupKeys steps ↔ x ∈ instanceIds steps := by
  unfold dedupKeys
  rw [mem_foldl_setInsert (fun s : WorkflowStep => s.instanceId) steps [] x]
  simp only [List.not_mem_nil, false_or]
  unfold instanceIds
  constructor
  · rintro ⟨s, hs, rfl⟩
    exact List.mem_map.mpr ⟨s, hs, rfl⟩
  · intro h
    obtain ⟨s, hs, rfl⟩ := List.mem_map.mp h
    exact ⟨s, hs, rfl⟩

theorem dedupKeys_length_le (steps : List WorkflowStep) :
    (dedupKeys steps).length ≤ steps.length := by
  have hsubp : List.Subperm (dedupKeys steps) (instanceIds steps) :=
    List.subperm_of_subset (dedupKeys_nodup steps)
      (fun x hx => (mem_dedupKeys steps x).mp hx)
  have h := hsubp.length_le
  unfold instanceIds at h
  rw [List.length_map] at h
  exact h

theorem dedupKeys_length_lt (steps : List WorkflowStep)
    (hdup : ¬ (instanceIds steps).Nodup) :
    (dedupKeys steps).length < steps.length := by
  have hsubp : List.Subperm (dedupKeys steps) (instanceIds steps) :=
    List.subperm_of_subset (dedupKeys_nodup steps)
      (fun x hx => (mem_dedupKeys steps x).mp hx)
  have hlen : (instanceIds steps).length = steps.length := by
    unfold instanceIds; rw [List.length_map]
  rcases Nat.lt_or_ge (dedupKeys steps).length steps.length with h | h
  · exact h
  · exfalso
    have hperm := hsubp.perm_of_length_le (by omega)
    exact hdup (hperm.nodup_iff.mp (dedupKeys_nodup steps))

theorem completed_length_le (steps : List WorkflowStep) (g : ExecutionGraph)
    (hinv : GraphInv steps g) :
    g.completed.length ≤ (g.nodes.map Prod.fst).length :=
  (List.subperm_of_subset hinv.complNodup hinv.complSub).length_le

theorem executeLoop_ok_of_acyclic (env : Env) (steps : List WorkflowStep)
    (hnodup : (instanceIds steps).Nodup)
    (hclosed : depsClosed steps)
    (hnocycle : ¬ hasDepCycle steps) :
    ∀ (fuel : Nat) (g : ExecutionGraph), GraphInv steps g →
      g.nodes.map Prod.fst = instanceIds steps →
      steps.length ≤ g.completed.length + fuel →
      ∃ g', executeLoop env steps.length fuel g =
          some (.ok (collectResults g', g')) ∧
        GraphInv steps g' ∧ g'.nodes.map Prod.fst = instanceIds steps ∧
        steps.length ≤ g'.completed.length := by
  intro fuel
  induction fuel with
  | zero =>
      intro g hinv hkeys hfuel
      refine ⟨g, ?_, hinv, hkeys, by omega⟩
      simp only [executeLoop]
      rw [if_neg (by omega)]
  | succ fuel ih =>
      intro g hinv hkeys hfuel
      by_cases hc : g.completed.length < steps.length
      · have htot : (instanceIds steps).length = steps.length := by
          unfold instanceIds; rw [List.length_map]
        have hready : getReadySteps g ≠ [] :=
          ready_nonempty_of_acyclic steps g hinv hkeys hnodup hclosed hnocycle
            (by omega)
        obtain ⟨n, rest, hr⟩ : ∃ n rest, getReadySteps g = n :: rest := by
          cases hrg : getReadySteps g with
          | nil => exact absurd hrg hready
          | cons a b => exact ⟨a, b, rfl⟩
        have hprops := ready_node_props steps g hinv n
          (by rw [hr]; exact List.mem_cons_self _ _)
        have hprog := batch_progress env n rest g hprops.2.1 hprops.2.2.1
        obtain ⟨g', h1, h2, h3, h4⟩ := ih
          ((n :: rest).foldl (fun g' nd => executeStep env g' nd.step.instanceId) g)
          (foldl_executeStep_inv steps env _ g hinv)
          (by rw [foldl_executeStep_keys, hkeys])
          (by omega)
        refine ⟨g', ?_, h2, h3, h4⟩
        simp only [executeLoop]
        rw [if_pos hc, hr]
        rw [if_neg (by simp)]
        exact h1
      · refine ⟨g, ?_, hinv, hkeys, by omega⟩
        simp only [executeLoop]
        rw [if_neg hc]

theorem transGen_mem_instanceIds (steps : List WorkflowStep) (a : String)
    (ha : Relation.TransGen (dependsOnRel steps) a a) : a ∈ instanceIds steps := by
  obtain ⟨b, ⟨s, hs, hid, _⟩, _⟩ := Relation.TransGen.head'_iff.mp ha
  rw [← hid]
  exact List.mem_map.mpr ⟨s, hs, rfl⟩

theorem ready_not_on_cycle (steps : List WorkflowStep) (g : ExecutionGraph)
    (hinv : GraphInv steps g) (hnodup : (instanceIds steps).Nodup)
    (hsafe : ∀ x ∈ g.completed, ¬ Relation.TransGen (dependsOnRel steps) x x)
    (n : ExecutionNode) (hn : n ∈ getReadySteps g) :
    ¬ Relation.TransGen (dependsOnRel steps) n.step.instanceId n.step.instanceId := by
  intro hcyc
  have hprops := ready_node_props steps g hinv n hn
  obtain ⟨c, ⟨s, hs, hid, hdep⟩, hrt⟩ := Relation.TransGen.head'_iff.mp hcyc
  have hseq : s = n.step :=
    List.inj_on_of_nodup_map hnodup hs hprops.1 hid
  have hcmem : c ∈ g.completed := hprops.2.2.2 c (by rw [← hseq]; exact hdep)
  have hcyc_c : Relation.TransGen (dependsOnRel steps) c c :=
    Relation.TransGen.tail' hrt ⟨s, hs, hid, hdep⟩
  exact hsafe c hcmem hcyc_c

theorem executeLoop_deadlock_nodup (env : Env) (steps : List WorkflowStep)
    (hnodup : (instanceIds steps).Nodup) (a : String)
    (hacyc : Relation.TransGen (dependsOnRel steps) a a) :
    ∀ (fuel : Nat) (g : ExecutionGraph), GraphInv steps g →
      g.nodes.map Prod.fst = instanceIds steps →
      (∀ x ∈ g.completed, ¬ Relation.TransGen (dependsOnRel steps) x x) →
      steps.length ≤ g.completed.length + fuel →
      executeLoop env steps.length fuel g = some (.error deadlockMsg) := by
  have hakey : a ∈ instanceIds steps := transGen_mem_instanceIds steps a hacyc
  have htot : (instanceIds steps).length = steps.length := by
    unfold instanceIds; rw [List.length_map]
  intro fuel
  induction fuel with
  | zero =>
      intro g hinv hkeys hsafe hfuel
      exfalso
      have hanc : a ∉ g.completed := fun h => hsafe a h hacyc
      have hsubp : List.Subperm (a :: g.completed) (instanceIds steps) :=
        List.subperm_of_subset (List.nodup_cons.mpr ⟨hanc, hinv.complNodup⟩)
          (by
            intro x hx
            rcases List.mem_cons.mp hx with rfl | hx
            · exact hakey
            · rw [← hkeys]; exact hinv.complSub x hx)
      have := hsubp.length_le
      simp only [List.length_cons] at this
      omega
  | succ fuel ih =>
      intro g hinv hkeys hsafe hfuel
      have hanc : a ∉ g.completed := fun h => hsafe a h hacyc
      have hlt : g.completed.length < steps.length := by
        have hsubp : List.Subperm (a :: g.completed) (instanceIds steps) :=
          List.subperm_of_subset (List.nodup_cons.mpr ⟨hanc, hinv.complNodup⟩)
            (by
              intro x hx
              rcases List.mem_cons.mp hx with rfl | hx
              · exact hakey
              · rw [← hkeys]; exact hinv.complSub x hx)
        have := hsubp.length_le
        simp only [List.length_cons] at this
        omega
      cases hr : getReadySteps g with
      | nil =>
          simp only [executeLoop]
          rw [if_pos hlt, hr]
          rw [if_pos (show ([] : List ExecutionNode).isEmpty = true from rfl),
            if_pos (show g.running.isEmpty = true by rw [hinv.runningNil]; rfl)]
      | cons n rest =>
          have hprops := ready_node_props steps g hinv n
            (by rw [hr]; exact List.mem_cons_self _ _)
          have hprog := batch_progress env n rest g hprops.2.1 hprops.2.2.1
          have hsafe' : ∀ x ∈ ((n :: rest).foldl
              (fun g' nd => executeStep env g' nd.step.instanceId) g).completed,
              ¬ Relation.TransGen (dependsOnRel steps) x x := by
            intro x hx
            rcases foldl_executeStep_completed_sub env (n :: rest) g x hx with
              h | ⟨n', hn', hid⟩
            · exact hsafe x h
            · rw [← hid]
              exact ready_not_on_cycle steps g hinv hnodup hsafe n'
                (by rw [hr]; exact hn')
          have hrec := ih
            ((n :: rest).foldl (fun g' nd => executeStep env g' nd.step.instanceId) g)
            (foldl_executeStep_inv steps env _ g hinv)
            (by rw [foldl_executeStep_keys, hkeys])
            hsafe'
            (by omega)
          simp only [executeLoop]
          rw [if_pos hlt, hr]
          rw [if_neg (by simp)]
          exact hrec

theorem executeLoop_deadlock_dup (env : Env) (steps : List WorkflowStep)
    (hklt : (dedupKeys steps).length < steps.length) :
    ∀ (fuel : Nat) (g : ExecutionGraph), GraphInv steps g →
      g.nodes.map Prod.fst = dedupKeys steps →
      (dedupKeys steps).length + 1 ≤ g.completed.length + fuel →
      executeLoop env steps.length fuel g = some (.error deadlockMsg) := by
  intro fuel
  induction fuel with
  | zero =>
      intro g hinv hkeys hfuel
      exfalso
      have hle := completed_length_le steps g hinv
      rw [hkeys] at hle
      omega
  | succ fuel ih =>
      intro g hinv hkeys hfuel
      have hle : g.completed.length ≤ (dedupKeys steps).length := by
        have hle := completed_length_le steps g hinv
        rw [hkeys] at hle
        exact hle
      have hlt : g.completed.length < steps.length := by omega
      cases hr : getReadySteps g with
      | nil =>
          simp only [executeLoop]
          rw [if_pos hlt, hr]
          rw [if_pos (show ([] : List ExecutionNode).isEmpty = true from rfl),
            if_pos (show g.running.isEmpty = true by rw [hinv.runningNil]; rfl)]
      | cons n rest =>
          have hprops := ready_node_props steps g hinv n
            (by rw [hr]; exact List.mem_cons_self _ _)
          have hprog := batch_progress env n rest g hprops.2.1 hprops.2.2.1
          have hrec := ih
            ((n :: rest).foldl (fun g' nd => executeStep env g' nd.step.instanceId) g)
            (foldl_executeStep_inv steps env _ g hinv)
            (by rw [foldl_executeStep_keys, hkeys])
            (by omega)
          simp only [executeLoop]
          rw [if_pos hlt, hr]
          rw [if_neg (by simp)]
          exact hrec

theorem collectResults_eq_filterMap (g : ExecutionGraph) :
    collectResults g = g.nodes.filterMap (fun p =>
      match p.2.result with
      | some r => if jsTruthy r then some (p.1, r) else none
      | none => none) := by
  unfold collectResults
  have haux : ∀ (l : List (String × ExecutionNode)) (acc : List (String × Value)),
      l.foldl (fun acc p =>
        match p.2.result with
        | some r => if jsTruthy r then acc ++ [(p.1, r)] else acc
        | none => acc) acc =
      acc ++ l.filterMap (fun p =>
        match p.2.result with
        | some r => if jsTruthy r then some (p.1, r) else none
        | none => none) := by
    intro l
    induction l with
    | nil => intro acc; simp
    | cons p rest ih =>
        intro acc
        rw [List.foldl_cons, List.filterMap_cons]
        cases hres : p.2.result with
        | none => simp only [hres]; exact ih acc
        | some r =>
            by_cases ht : jsTruthy r = true
            · simp only [hres, if_pos ht]
              rw [ih (acc ++ [(p.1, r)])]
              simp
            · simp only [hres, if_neg ht]
              exact ih acc
  rw [haux g.nodes []]
  simp

theorem collectResults_mem_iff (g : ExecutionGraph) (x : String) (v : Value) :
    (x, v) ∈ collectResults g ↔
      ∃ node, (x, node) ∈ g.nodes ∧ node.result = some v ∧ jsTruthy v = true := by
  rw [collectResults_eq_filterMap, List.mem_filterMap]
  constructor
  · rintro ⟨p, hp, hf⟩
    cases hres : p.2.result with
    | none => simp only [hres] at hf; cases hf
    | some r =>
        simp only [hres] at hf
        by_cases ht : jsTruthy r = true
        · rw [if_pos ht] at hf
          injection hf with hpair
          injection hpair with hx hv
          refine ⟨p.2, ?_, ?_, ?_⟩
          · rw [← hx]; exact hp
          · rw [hres, hv]
          · rw [← hv]; exact ht
        · rw [if_neg ht] at hf; cases hf
  · rintro ⟨node, hmem, hres, ht⟩
    refine ⟨(x, node), hmem, ?_⟩
    simp only [hres]
    rw [if_pos ht]

theorem executeLoop_ok_inv (env : Env) (total : Nat) (steps : List WorkflowStep) :
    ∀ (fuel : Nat) (g : ExecutionGraph), GraphInv steps g →
      ∀ res g', executeLoop env total fuel g = some (.ok (res, g')) →
        res = collectResults g' ∧ GraphInv steps g' ∧
        g'.nodes.map Prod.fst = g.nodes.map Prod.fst ∧
        total ≤ g'.completed.length := by
  intro fuel
  induction fuel with
  | zero =>
      intro g hinv res g' heq
      simp only [executeLoop] at heq
      by_cases hc : g.completed.length < total
      · rw [if_pos hc] at heq; cases heq
      · rw [if_neg hc] at heq
        injection heq with h1
        injection h1 with h2
        injection h2 with hres hg
        subst hg
        exact ⟨hres.symm, hinv, rfl, by omega⟩
  | succ fuel ih =>
      intro g hinv res g' heq
      simp only [executeLoop] at heq
      by_cases hc : g.completed.length < total
      · rw [if_pos hc] at heq
        by_cases hre : (getReadySteps g).isEmpty = true
        · rw [if_pos hre] at heq
          rw [if_pos (by rw [hinv.runningNil]; rfl)] at heq
          simp at heq
        · rw [if_neg hre] at heq
          have h := ih _ (foldl_executeStep_inv steps env _ g hinv) res g' heq
          exact ⟨h.1, h.2.1, by rw [h.2.2.1, foldl_executeStep_keys], h.2.2.2⟩
      · rw [if_neg hc] at heq
        injection heq with h1
        injection h1 with h2
        injection h2 with hres hg
        subst hg
        exact ⟨hres.symm, hinv, rfl, by omega⟩

/-- **C1.**  A step list whose `dependsOn` relation has a cycle always makes
`execute` abort with the fatal deadlock error, for every environment: the
run never hangs (the loop needs at most one iteration per node plus the
final deadlock check, within the modelled fuel) and never reports success. -/
theorem execute_cycle_deadlock (env : Env) (steps : List WorkflowStep)
    (hcyc : hasDepCycle steps) :
    execute env steps = some (.error deadlockMsg) := by
  unfold execute
  by_cases hnodup : (instanceIds steps).Nodup
  · obtain ⟨a, ha⟩ := hcyc
    exact executeLoop_deadlock_nodup env steps hnodup a ha (steps.length + 1)
      (initGraph steps) (graphInv_initGraph steps)
      (by rw [initGraph_keys, dedupKeys_of_nodup steps hnodup])
      (fun x hx => absurd hx (List.not_mem_nil x))
      (by rw [show (initGraph steps).completed = [] from rfl]; simp)
  · have hklt := dedupKeys_length_lt steps hnodup
    exact executeLoop_deadlock_dup env steps hklt (steps.length + 1)
      (initGraph steps) (graphInv_initGraph steps) (initGraph_keys steps)
      (by rw [show (initGraph steps).completed = [] from rfl]; simp; omega)

theorem execute_cycle_deadlock_witness :
    hasDepCycle cyclePair ∧
    execute envZero cyclePair = some (.error deadlockMsg) := by
  have hcyc : hasDepCycle cyclePair :=
    ⟨"A", Relation.TransGen.head
      ⟨{ instanceId := "A", moduleId := "m", dependsOn := ["B"] },
        List.mem_cons_self _ _, rfl, List.mem_cons_self _ _⟩
      (Relation.TransGen.single
        ⟨{ instanceId := "B", moduleId := "m", dependsOn := ["A"] },
          List.mem_cons_of_mem _ (List.mem_cons_self _ _), rfl,
          List.mem_cons_self _ _⟩)⟩
  exact ⟨hcyc, execute_cycle_deadlock envZero cyclePair hcyc⟩

/-- **C2 counterexample.**  A single step depending on a nonexistent id has
an acyclic `dependsOn` relation, yet `execute` deadlocks instead of
terminating with `completed.size = steps.length`: acyclicity alone does not
give completion — the claim needs dependencies to reference existing steps. -/
theorem execute_dangling_counterexample :
    (¬ hasDepCycle danglingStep) ∧
    execute envZero danglingStep = some (.error deadlockMsg) := by
  constructor
  · rintro ⟨a, ha⟩
    obtain ⟨b, ⟨s, hs, hid, hdep⟩, hrt⟩ := Relation.TransGen.head'_iff.mp ha
    have hsA : s = { instanceId := "A", moduleId := "m", dependsOn := ["Z"] } := by
      simpa [danglingStep] using hs
    subst hsA
    have hbZ : b = "Z" := by simpa using hdep
    subst hbZ
    have haA : a = "A" := by simpa using hid.symm
    subst haA
    rcases Relation.ReflTransGen.cases_head hrt with heq | ⟨c, ⟨s', hs', hid', _⟩, _⟩
    · exact absurd heq (by decide)
    · have hsA' : s' = { instanceId := "A", moduleId := "m", dependsOn := ["Z"] } := by
        simpa [danglingStep] using hs'
      rw [hsA'] at hid'
      exact absurd hid' (by decide)
  · rfl

/-- **C2.**  For a step list with duplicate-free instanceIds, dependencies
referencing only steps of the list, and no `dependsOn` cycle, `execute`
terminates with a success result whose final graph has
`completed.length = steps.length`, every node in a terminal status. -/
theorem execute_acyclic_terminates (env : Env) (steps : List WorkflowStep)
    (hnodup : (instanceIds steps).Nodup)
    (hclosed : depsClosed steps)
    (hnocycle : ¬ hasDepCycle steps) :
    ∃ g', execute env steps = some (.ok (collectResults g', g')) ∧
      g'.completed.length = steps.length ∧
      (∀ p ∈ g'.nodes, p.2.status = .completed ∨ p.2.status = .failed) := by
  obtain ⟨g', h1, hinv', hkeys', htot⟩ := executeLoop_ok_of_acyclic env steps
    hnodup hclosed hnocycle (steps.length + 1) (initGraph steps)
    (graphInv_initGraph steps)
    (by rw [initGraph_keys, dedupKeys_of_nodup steps hnodup])
    (by rw [show (initGraph steps).completed = [] from rfl]; simp)
  have hids : (instanceIds steps).length = steps.length := by
    unfold instanceIds; rw [List.length_map]
  have hlen : g'.completed.length = steps.length := by
    have hle := completed_length_le steps g' hinv'
    rw [hkeys'] at hle
    omega
  refine ⟨g', h1, hlen, ?_⟩
  intro p hp
  have hperm : List.Perm g'.completed (instanceIds steps) :=
    (List.subperm_of_subset hinv'.complNodup
      (fun x hx => hkeys' ▸ hinv'.complSub x hx)).perm_of_length_le (by omega)
  have hpc : p.1 ∈ g'.completed := by
    rw [hperm.mem_iff, ← hkeys']
    exact List.mem_map.mpr ⟨p, hp, rfl⟩
  exact (hinv'.statusIff p hp).mp hpc

theorem execute_acyclic_terminates_witness :
    (instanceIds [stepA]).Nodup ∧ depsClosed [stepA] ∧ ¬ hasDepCycle [stepA] ∧
    ∃ g', execute envZero [stepA] = some (.ok (collectResults g', g')) ∧
      g'.completed.length = ([stepA] : List WorkflowStep).length ∧
      (∀ p ∈ g'.nodes, p.2.status = .completed ∨ p.2.status = .failed) := by
  have h1 : (instanceIds [stepA]).Nodup := by decide
  have h2 : depsClosed [stepA] := by
    intro s hs d hd
    simp only [List.mem_singleton] at hs
    subst hs
    simp [stepA] at hd
  have h3 : ¬ hasDepCycle [stepA] := by
    rintro ⟨a, ha⟩
    obtain ⟨b, ⟨s, hs, _, hdep⟩, _⟩ := Relation.TransGen.head'_iff.mp ha
    simp only [List.mem_singleton] at hs
    subst hs
    simp [stepA] at hdep
  exact ⟨h1, h2, h3, execute_acyclic_terminates envZero [stepA] h1 h2 h3⟩

/-- **C4.**  When a step's attempt fails (thrown executor or missing
module), `executeStep` captures the failure: the node turns `failed` with
result `{status: "error", error: msg}`, leaves `running`, joins `completed`
(unblocking dependents), the stored result is the error record, a dependent
with this step as single dependency receives the error record as its gathered
input, and a missing module yields exactly the `"Module not found: …"`
failure; nothing is propagated out of `executeStep`. -/
theorem executeStep_failure_spec (env : Env) (g : ExecutionGraph) (id : String)
    (node : ExecutionNode) (msg : String)
    (hnode : mapGet g.nodes id = some node)
    (hrun : id ∉ g.running)
    (herr : stepAttempt env g node.step = .error msg) :
    mapGet (executeStep env g id).nodes id =
      some { node with status := .failed, error := some msg,
                       result := some (errorRecord msg) } ∧
    (executeStep env g id).completed = setInsert g.completed id ∧
    (executeStep env g id).running = g.running ∧
    resOf (executeStep env g id) id = some (errorRecord msg) ∧
    (∀ dep : WorkflowStep, dep.dependsOn = [id] →
      gatherInputs (executeStep env g id) dep = .ok (some (errorRecord msg))) ∧
    (∀ step : WorkflowStep, env.getModule step.moduleId = none →
      stepAttempt env g step = .error ("Module not found: " ++ step.moduleId)) := by
  have heq2 : executeStep env g id =
      { nodes := mapSet g.nodes id
          { node with status := .failed, error := some msg,
                      result := some (errorRecord msg) }
        completed := setInsert g.completed id
        running := (setInsert g.running id).erase id } := by
    rw [executeStep_eq env g id node hnode, herr]
  have h4 : resOf (executeStep env g id) id = some (errorRecord msg) := by
    unfold resOf
    rw [heq2]
    show (mapGet (mapSet g.nodes id _) id).bind _ = _
    rw [mapGet_mapSet_self]
    rfl
  refine ⟨?_, ?_, ?_, h4, ?_, ?_⟩
  · rw [heq2]
    exact mapGet_mapSet_self _ _ _
  · rw [heq2]
  · rw [heq2]
    exact setInsert_erase_of_not_mem _ _ hrun
  · intro dep hdep
    show gatherInputsFrom (resOf (executeStep env g id)) dep = _
    unfold gatherInputsFrom
    rw [hdep]
    simp only [h4]
    rfl
  · intro step hstep
    unfold stepAttempt
    rw [hstep]

theorem executeStep_failure_spec_witness :
    mapGet (executeStep envThrow (initGraph [stepA]) "A").nodes "A" =
      some { step := stepA, status := .failed,
             result := some (errorRecord "boom"), error := some "boom" } ∧
    (executeStep envThrow (initGraph [stepA]) "A").completed =
      setInsert (initGraph [stepA]).completed "A" ∧
    (executeStep envThrow (initGraph [stepA]) "A").running =
      (initGraph [stepA]).running ∧
    resOf (executeStep envThrow (initGraph [stepA]) "A") "A" =
      some (errorRecord "boom") ∧
    (∀ dep : WorkflowStep, dep.dependsOn = ["A"] →
      gatherInputs (executeStep envThrow (initGraph [stepA]) "A") dep =
        .ok (some (errorRecord "boom"))) ∧
    (∀ step : WorkflowStep, envThrow.getModule step.moduleId = none →
      stepAttempt envThrow (initGraph [stepA]) step =
        .error ("Module not found: " ++ step.moduleId)) :=
  executeStep_failure_spec envThrow (initGraph [stepA]) "A"
    { step := stepA, status := .pending } "boom" rfl
    (List.not_mem_nil _) rfl

/-- **C10.**  A successful run returns exactly the truthy results: the
returned mapping holds an entry `(x, v)` precisely when node `x` carries the
result `v` and `v` is truthy (so falsy results — `null`, `0`, `""`, `false`
— are silently omitted), while every node of the final graph, including
those with falsy results, is in `completed`. -/
theorem execute_results_spec (env : Env) (steps : List WorkflowStep)
    (res : List (String × Value)) (g' : ExecutionGraph)
    (h : execute env steps = some (.ok (res, g'))) :
    res = collectResults g' ∧
    (∀ x v, (x, v) ∈ res ↔
      ∃ node, (x, node) ∈ g'.nodes ∧ node.result = some v ∧
        jsTruthy v = true) ∧
    (∀ p ∈ g'.nodes, p.1 ∈ g'.completed) := by
  unfold execute at h
  obtain ⟨hres, hinv', hkeys', htot⟩ := executeLoop_ok_inv env steps.length steps
    (steps.length + 1) (initGraph steps) (graphInv_initGraph steps) res g' h
  refine ⟨hres, ?_, ?_⟩
  · intro x v
    rw [hres]
    exact collectResults_mem_iff g' x v
  · intro p hp
    have hkeq : g'.nodes.map Prod.fst = dedupKeys steps := by
      rw [hkeys', initGraph_keys]
    have hklen : (g'.nodes.map Prod.fst).length ≤ steps.length := by
      rw [hkeq]
      exact dedupKeys_length_le steps
    have hperm : List.Perm g'.completed (g'.nodes.map Prod.fst) :=
      (List.subperm_of_subset hinv'.complNodup
        hinv'.complSub).perm_of_length_le (by omega)
    rw [hperm.mem_iff]
    exact List.mem_map.mpr ⟨p, hp, rfl⟩

theorem execute_results_spec_witness :
    ([] : List (String × Value)) = collectResults gfinZero ∧
    (∀ x v, (x, v) ∈ ([] : List (String × Value)) ↔
      ∃ node, (x, node) ∈ gfinZero.nodes ∧ node.result = some v ∧
        jsTruthy v = true) ∧
    (∀ p ∈ gfinZero.nodes, p.1 ∈ gfinZero.completed) :=
  execute_results_spec envZero [stepA] [] gfinZero rfl

end SalesWorkflow
